import Mathlib

/-!
# Verification of `SchemaDirectiveVisitor` (graphql-tools, `src/directives.ts`)

A shallow embedding of the schema-directive dispatcher:

* the untyped literal decoder `valueFromASTUntyped`;
* the capability registry `shouldCall` / `getLocations`;
* the schema walk `visitSchema` with its helpers `visit`, `visitFields`,
  `callVisitorMethods` and `getVisitors`.

JavaScript objects used as string-keyed dictionaries are embedded as
association lists with JS assignment semantics (`jsAssign`): an assignment to
an existing key overwrites the value in place (keeping the key's original
position, i.e. first-insertion enumeration order), and an assignment to a
fresh key appends it.  Exceptions are embedded with `Except String`, carrying
the thrown `Error`'s message; mutation of the walk's accumulators is embedded
by explicit state passing, where each step returns its `Except` outcome
together with the state reached when the step finished or threw.
-/

namespace SchemaDirectives

/-- JS object property assignment `obj[k] = v` on a string-keyed dictionary:
overwrite in place when the key exists, append otherwise. -/
def jsAssign {α : Type} (obj : List (String × α)) (k : String) (v : α) :
    List (String × α) :=
  if obj.any (fun p => p.1 == k) then
    obj.map (fun p => if p.1 == k then (k, v) else p)
  else obj ++ [(k, v)]

/-- JS object property read `obj[k]` (also `hasOwnProperty` via `isSome`). -/
def assocLookup {α : Type} (obj : List (String × α)) (k : String) : Option α :=
  match obj with
  | [] => none
  | p :: rest => if p.1 == k then some p.2 else assocLookup rest k

/-- Build a JS object from a list of assignments performed in order. -/
def jsObjOf {α : Type} (l : List (String × α)) : List (String × α) :=
  l.foldl (fun m p => jsAssign m p.1 p.2) []

/-! ## Raw literal nodes (`ValueNode` from `graphql`) and decoded JS values -/

/-- The raw literal AST (`ValueNode`).  The six kinds recognised by
`valueFromASTUntyped` get their own constructors; `otherValue` stands for a
node of any other kind (e.g. `Variable`), carrying its `kind` tag. -/
inductive ValueNode where
  | nullValue
  | intValue (value : String)
  | floatValue (value : String)
  | stringValue (value : String)
  | enumValue (value : String)
  | booleanValue (value : Bool)
  | listValue (values : List ValueNode)
  | objectValue (fields : List (String × ValueNode))
  | otherValue (kind : String)

/-- Decoded JavaScript values.  `vfloat` keeps the literal's decimal text as an
abstract stand-in for the IEEE-754 double `parseFloat` produces (floats are
not modelled bitwise); `vnan` is the `NaN` that `parseInt` returns when its
input holds no digits; `vint` carries the exact mathematical value of the
integral double `parseInt` returns (exact up to 2^53, rounded to the nearest
representable double beyond); `vinfinity` is the `Infinity` that `parseInt`
returns when that rounding overflows. -/
inductive Value where
  | vnull
  | vnan
  | vint (n : Int)
  | vinfinity (negative : Bool)
  | vfloat (text : String)
  | vstr (s : String)
  | vbool (b : Bool)
  | vlist (elements : List Value)
  | vobj (fields : List (String × Value))

/-- Whitespace skipped by JS `parseInt`. -/
def isWhitespaceChar (c : Char) : Bool :=
  c == ' ' || c == '\t' || c == '\n' || c == '\r'

/-- Read an optional single leading sign, JS-`parseInt` style. -/
def splitSign (cs : List Char) : Bool × List Char :=
  match cs with
  | c :: rest =>
    if c == '-' then (true, rest)
    else if c == '+' then (false, rest)
    else (false, cs)
  | [] => (false, cs)

/-- Accumulate a decimal digit string left to right. -/
def digitsToNat : List Char → Nat → Nat
  | [], acc => acc
  | c :: rest, acc => digitsToNat rest (acc * 10 + (c.toNat - 48))

/-- The unit in the last place of the IEEE-754 double binade containing `n`:
the smallest power-of-two `step` with `n < 2 ^ 53 * step`, found by doubling.
The first argument is recursion fuel; `fuel ≥ log2 n` suffices, so callers
pass `n` itself. -/
def ulpAux : Nat → Nat → Nat → Nat
  | 0, _, step => step
  | fuel + 1, n, step =>
    if n < 2 ^ 53 * step then step else ulpAux fuel n (2 * step)

/-- The rounding granularity for the double nearest to `n` (for `n > 2^53`). -/
def ulpFor (n : Nat) : Nat := ulpAux n n 1

/-- Round `n` to the nearest multiple of `step`, ties to the even multiple:
IEEE-754 round-to-nearest-even restricted to nonnegative integers. -/
def roundNearestEven (n step : Nat) : Nat :=
  let q := n / step
  let r := n % step
  if 2 * r < step then q * step
  else if step < 2 * r then (q + 1) * step
  else if q % 2 = 0 then q * step else (q + 1) * step

/-- The exact mathematical value of the IEEE-754 double nearest to `n`:
exact up to 2^53, rounded to the nearest representable double beyond, and
`none` (overflow to `Infinity`) when the rounded value reaches 2^1024. -/
def natToDouble (n : Nat) : Option Nat :=
  if n ≤ 2 ^ 53 then some n
  else
    let r := roundNearestEven n (ulpFor n)
    if r < 2 ^ 1024 then some r else none

/-- The result of JS `parseInt`: `NaN` when no digits were read, otherwise a
double, which for `parseInt` is always integral or infinite. -/
inductive JSNumber where
  | nan
  | infinity (negative : Bool)
  | int (value : Int)

/-- JS `parseInt(s, 10)`: skip whitespace, read an optional sign, then the
longest digit prefix; `NaN` when that prefix is empty; otherwise the double
nearest to the signed magnitude the digits denote. -/
def jsParseInt10 (s : String) : JSNumber :=
  let afterSign := splitSign (s.toList.dropWhile isWhitespaceChar)
  let ds := afterSign.2.takeWhile Char.isDigit
  if ds.isEmpty then .nan
  else
    match natToDouble (digitsToNat ds 0) with
    | none => .infinity afterSign.1
    | some m => .int (if afterSign.1 then -(m : Int) else (m : Int))

/-- The value the decoder's `Kind.INT` case produces from the literal text:
the JS Number `parseInt(value, 10)` evaluates to. -/
def parseIntResult (s : String) : Value :=
  match jsParseInt10 s with
  | .int n => .vint n
  | .nan => .vnan
  | .infinity neg => .vinfinity neg

mutual
/-- `valueFromASTUntyped` (directives.ts:439-465): the untyped literal
decoder.  The `default` case of the source's `switch` throws
`new Error('Unexpected value kind: ' + valueNode.kind)`. -/
def valueFromASTUntyped : ValueNode → Except String Value
  | .nullValue => .ok .vnull
  | .intValue s => .ok (parseIntResult s)
  | .floatValue s => .ok (.vfloat s)
  | .stringValue s => .ok (.vstr s)
  | .enumValue s => .ok (.vstr s)
  | .booleanValue b => .ok (.vbool b)
  | .listValue vs =>
    match valueListFromAST vs with
    | .error e => .error e
    | .ok ws => .ok (.vlist ws)
  | .objectValue fs =>
    match valueFieldsFromAST [] fs with
    | .error e => .error e
    | .ok m => .ok (.vobj m)
  | .otherValue kind => .error ("Unexpected value kind: " ++ kind)

/-- The `Kind.LIST` case: `valueNode.values.map(valueFromASTUntyped)`, the
first thrown error propagating. -/
def valueListFromAST : List ValueNode → Except String (List Value)
  | [] => .ok []
  | v :: rest =>
    match valueFromASTUntyped v with
    | .error e => .error e
    | .ok w =>
      match valueListFromAST rest with
      | .error e => .error e
      | .ok ws => .ok (w :: ws)

/-- The `Kind.OBJECT` case: `valueNode.fields.forEach(field => obj[name] =
valueFromASTUntyped(field.value))` on an initially empty object `obj`. -/
def valueFieldsFromAST (obj : List (String × Value)) :
    List (String × ValueNode) → Except String (List (String × Value))
  | [] => .ok obj
  | (n, v) :: rest =>
    match valueFromASTUntyped v with
    | .error e => .error e
    | .ok w => valueFieldsFromAST (jsAssign obj n w) rest
end

/-! ## The capability registry: `shouldCall` and `getLocations` -/

/-- `methodToLocationMap` (directives.ts:403-417): visitor method names to
`DirectiveLocation` enum values. -/
def methodToLocationMap : List (String × String) :=
  [("visitSchema", "SCHEMA"),
   ("visitScalar", "SCALAR"),
   ("visitObject", "OBJECT"),
   ("visitFieldDefinition", "FIELD_DEFINITION"),
   ("visitArgumentDefinition", "ARGUMENT_DEFINITION"),
   ("visitInterface", "INTERFACE"),
   ("visitUnion", "UNION"),
   ("visitEnum", "ENUM"),
   ("visitEnumValue", "ENUM_VALUE"),
   ("visitInputObject", "INPUT_OBJECT"),
   ("visitInputFieldDefinition", "INPUT_FIELD_DEFINITION")]

/-- The recognised dispatch method names, in the map's declaration order. -/
def methodNames : List String := methodToLocationMap.map Prod.fst

/-- A `SchemaDirectiveVisitor` subclass, observed through the two prototype
features the source consults: which of its methods differ from the inherited
no-op stubs, and the `for...in` enumeration of its prototype's keys.
`overridesMethod m` embeds `!visitorMethodStubSet.has(this.prototype[m])`;
`protoKeys` embeds `for (let key in this.prototype)` (with ES5-compiled
classes the inherited visit methods are enumerable, so every recognised
method name occurs among `protoKeys`). -/
structure VisitorClass where
  overridesMethod : String → Bool
  protoKeys : List String

/-- `SchemaDirectiveVisitor.shouldCall` (directives.ts:326-329): the method
name is recognised and the class's implementation is not the inherited
stub. -/
def shouldCall (cls : VisitorClass) (methodName : String) : Bool :=
  (methodToLocationMap.any fun p => p.1 == methodName) && cls.overridesMethod methodName

/-- The loop body of `getLocations` (directives.ts:386-391): for each
prototype key passing `shouldCall`, push `methodToLocationMap[key]`. -/
def computeLocations (cls : VisitorClass) : List String :=
  cls.protoKeys.filterMap fun key =>
    if shouldCall cls key then assocLookup methodToLocationMap key else none

/-- `SchemaDirectiveVisitor.getLocations` (directives.ts:384-394) with the
class's private static `locations` field (`null` initially, `Option` here)
passed and returned explicitly: compute once, then return the memo. -/
def getLocations (cls : VisitorClass) :
    Option (List String) → List String × Option (List String)
  | none => (computeLocations cls, some (computeLocations cls))
  | some ls => (ls, some ls)

/-! ## The schema graph -/

/-- A directive occurrence in the AST (`DirectiveNode`): its name and its
`(argument name, raw literal)` pairs in source order. -/
structure DirectiveNode where
  name : String
  arguments : List (String × ValueNode)

/-- The `astNode` of a schema object: it may or may not carry a `directives`
list.  (A missing `astNode` is `none` at the use sites below.) -/
structure ASTNodeInfo where
  directives : Option (List DirectiveNode)

/-- A `GraphQLArgument` as the walk consumes it. -/
structure ArgumentDef where
  name : String
  astNode : Option ASTNodeInfo

/-- A `GraphQLField`.  `args` is `Option` because the source guards with
`if (field.args)`. -/
structure FieldDef where
  name : String
  astNode : Option ASTNodeInfo
  args : Option (List ArgumentDef)

/-- A `GraphQLInputField`. -/
structure InputFieldDef where
  name : String
  astNode : Option ASTNodeInfo

/-- A `GraphQLEnumValue`. -/
structure EnumValueDef where
  name : String
  astNode : Option ASTNodeInfo

/-- The named types distinguished by `visit`'s `instanceof` chain
(directives.ts:159-208), as a tagged union. -/
inductive NamedType where
  | objectType (name : String) (astNode : Option ASTNodeInfo) (fields : List FieldDef)
  | interfaceType (name : String) (astNode : Option ASTNodeInfo) (fields : List FieldDef)
  | inputObjectType (name : String) (astNode : Option ASTNodeInfo) (fields : List InputFieldDef)
  | scalarType (name : String) (astNode : Option ASTNodeInfo)
  | unionType (name : String) (astNode : Option ASTNodeInfo) (memberTypeNames : List String)
  | enumType (name : String) (astNode : Option ASTNodeInfo) (values : List EnumValueDef)

/-- The name of a named type. -/
def NamedType.name : NamedType → String
  | .objectType nm _ _ => nm
  | .interfaceType nm _ _ => nm
  | .inputObjectType nm _ _ => nm
  | .scalarType nm _ => nm
  | .unionType nm _ _ => nm
  | .enumType nm _ _ => nm

/-- The `astNode` of a named type. -/
def NamedType.astNode : NamedType → Option ASTNodeInfo
  | .objectType _ ast _ => ast
  | .interfaceType _ ast _ => ast
  | .inputObjectType _ ast _ => ast
  | .scalarType _ ast => ast
  | .unionType _ ast _ => ast
  | .enumType _ ast _ => ast

/-- A declared directive argument (`GraphQLArgument` on a `GraphQLDirective`),
with its coercion capability and optional default, both opaque external
inputs. -/
structure DeclaredArgument where
  name : String
  coerce : ValueNode → Value
  defaultValue : Option Value

/-- A `GraphQLDirective` as returned by `schema.getDirectives()`. -/
structure GraphQLDirectiveDecl where
  name : String
  args : List DeclaredArgument

/-- A `GraphQLSchema`: its own `astNode`, `getTypeMap()` as an ordered
name-keyed object, and `getDirectives()`. -/
structure Schema where
  astNode : Option ASTNodeInfo
  typeMap : List (String × NamedType)
  directives : List GraphQLDirectiveDecl

/-! ## The walk -/

/-- A `SchemaDirectiveVisitor` instance as created at directives.ts:301-306:
its assigned `name`, its coerced `args` object, and (the name of) the node it
was created to visit.  The `schema` back-reference of the source is omitted:
it is the same whole-schema reference for every instance of a walk. -/
structure VisitorInstance where
  name : String
  args : List (String × Value)
  visitedTypeName : String

/-- An observable step of the walk: `enter t` when `visit` is entered for the
named type `t`, and `dispatch m d n` when `d[methodName](type, ...)` fires
method `m` of the instance created for directive `d` on node `n`. -/
inductive WalkEvent where
  | enter (typeName : String)
  | dispatch (methodName : String) (directiveName : String) (nodeName : String)
deriving DecidableEq

/-- The mutable state of one `visitSchema` call: the `createdVisitors`
accumulator and the trace of observable steps taken so far. -/
structure WalkState where
  createdVisitors : List (String × List VisitorInstance)
  trace : List WalkEvent

/-- The per-walk constants: the caller's `directiveVisitors` table and the
`declaredDirectives` object built from `schema.getDirectives()`. -/
structure WalkCtx where
  directiveVisitors : List (String × VisitorClass)
  declaredDirectives : List (String × GraphQLDirectiveDecl)

/-- `getArgumentValues` is imported from `graphql/execution/values` and is not
part of this repository.  Modelled from the spec (§4.3 typed mode): for each
declared parameter, a supplied raw literal is coerced through the parameter's
declared type; otherwise its declared default is used; a missing parameter
with no default is bound to null. -/
def getArgumentValues (decl : GraphQLDirectiveDecl) (node : DirectiveNode) :
    List (String × Value) :=
  decl.args.map fun p =>
    match assocLookup node.arguments p.name with
    | some raw => (p.name, p.coerce raw)
    | none => (p.name, p.defaultValue.getD .vnull)

/-- The untyped branch of `getVisitors` (directives.ts:290-293):
`directiveNode.arguments.forEach(arg => args[arg.name.value] =
valueFromASTUntyped(arg.value))` on an initially empty object. -/
def decodeArguments (acc : List (String × Value)) :
    List (String × ValueNode) → Except String (List (String × Value))
  | [] => .ok acc
  | (n, raw) :: rest =>
    match valueFromASTUntyped raw with
    | .error e => .error e
    | .ok v => decodeArguments (jsAssign acc n v) rest

/-- One iteration of the `directiveNodes.forEach` loop of `getVisitors`
(directives.ts:265-307): skip names missing from the table, skip classes that
do not override `methodName`, then build the instance with typed or untyped
arguments. -/
def buildVisitor (ctx : WalkCtx) (nodeName methodName : String)
    (directiveNode : DirectiveNode) : Except String (Option VisitorInstance) :=
  match assocLookup ctx.directiveVisitors directiveNode.name with
  | none => .ok none
  | some visitorClass =>
    if shouldCall visitorClass methodName then
      match assocLookup ctx.declaredDirectives directiveNode.name with
      | some decl =>
        .ok (some ⟨directiveNode.name, getArgumentValues decl directiveNode, nodeName⟩)
      | none =>
        match decodeArguments [] directiveNode.arguments with
        | .error e => .error e
        | .ok args => .ok (some ⟨directiveNode.name, args, nodeName⟩)
    else .ok none

/-- The whole `directiveNodes.forEach` loop: the instances pushed into the
local `visitors` array, in occurrence order, the first thrown error
propagating. -/
def buildVisitors (ctx : WalkCtx) (nodeName methodName : String) :
    List DirectiveNode → Except String (List VisitorInstance)
  | [] => .ok []
  | d :: rest =>
    match buildVisitor ctx nodeName methodName d with
    | .error e => .error e
    | .ok none => buildVisitors ctx nodeName methodName rest
    | .ok (some v) =>
      match buildVisitors ctx nodeName methodName rest with
      | .error e => .error e
      | .ok vs => .ok (v :: vs)

/-- `createdVisitors[visitor.name].push(visitor)` (directives.ts:311). -/
def pushVisitor (cv : List (String × List VisitorInstance)) (v : VisitorInstance) :
    List (String × List VisitorInstance) :=
  cv.map fun p => if p.1 == v.name then (p.1, p.2 ++ [v]) else p

/-- `visitors.forEach(visitor => createdVisitors[visitor.name].push(visitor))`
(directives.ts:309-313). -/
def registerVisitors (cv : List (String × List VisitorInstance))
    (vs : List VisitorInstance) : List (String × List VisitorInstance) :=
  vs.foldl pushVisitor cv

/-- `getVisitors` (directives.ts:255-316): resolve the instances to apply to
one node.  Returns the local `visitors` array and the state after the
`createdVisitors` registration; a decode error propagates with nothing
registered (registration happens after the loop). -/
def getVisitors (ctx : WalkCtx) (nodeName : String) (astNode : Option ASTNodeInfo)
    (methodName : String) (st : WalkState) :
    Except String (List VisitorInstance) × WalkState :=
  match astNode with
  | none => (.ok [], st)
  | some a =>
    match a.directives with
    | none => (.ok [], st)
    | some directiveNodes =>
      match buildVisitors ctx nodeName methodName directiveNodes with
      | .error e => (.error e, st)
      | .ok vs => (.ok vs, { st with createdVisitors := registerVisitors st.createdVisitors vs })

/-- `callVisitorMethods` (directives.ts:243-251): resolve, then fire
`d[methodName](type, ...)` on each instance in order, recorded as dispatch
events. -/
def callVisitorMethods (ctx : WalkCtx) (methodName nodeName : String)
    (astNode : Option ASTNodeInfo) (st : WalkState) : Except String Unit × WalkState :=
  match getVisitors ctx nodeName astNode methodName st with
  | (.error e, st') => (.error e, st')
  | (.ok vs, st') =>
    (.ok (),
     { st' with trace := st'.trace ++ vs.map fun v => WalkEvent.dispatch methodName v.name nodeName })

/-- The `field.args.forEach` loop of `visitFields` (directives.ts:228-239). -/
def visitArguments (ctx : WalkCtx) : List ArgumentDef → WalkState →
    Except String Unit × WalkState
  | [], st => (.ok (), st)
  | arg :: rest, st =>
    match callVisitorMethods ctx "visitArgumentDefinition" arg.name arg.astNode st with
    | (.error e, st') => (.error e, st')
    | (.ok _, st') => visitArguments ctx rest st'

/-- `visitFields` (directives.ts:211-241). -/
def visitFields (ctx : WalkCtx) : List FieldDef → WalkState →
    Except String Unit × WalkState
  | [], st => (.ok (), st)
  | f :: rest, st =>
    match callVisitorMethods ctx "visitFieldDefinition" f.name f.astNode st with
    | (.error e, st') => (.error e, st')
    | (.ok _, st') =>
      match (match f.args with
             | none => (Except.ok (), st')
             | some argList => visitArguments ctx argList st') with
      | (.error e, st'') => (.error e, st'')
      | (.ok _, st'') => visitFields ctx rest st''

/-- The input-object field loop (directives.ts:174-180). -/
def visitInputFields (ctx : WalkCtx) : List InputFieldDef → WalkState →
    Except String Unit × WalkState
  | [], st => (.ok (), st)
  | f :: rest, st =>
    match callVisitorMethods ctx "visitInputFieldDefinition" f.name f.astNode st with
    | (.error e, st') => (.error e, st')
    | (.ok _, st') => visitInputFields ctx rest st'

/-- The enum value loop (directives.ts:203-207). -/
def visitEnumValues (ctx : WalkCtx) : List EnumValueDef → WalkState →
    Except String Unit × WalkState
  | [], st => (.ok (), st)
  | v :: rest, st =>
    match callVisitorMethods ctx "visitEnumValue" v.name v.astNode st with
    | (.error e, st') => (.error e, st')
    | (.ok _, st') => visitEnumValues ctx rest st'

/-- The named-type branches of `visit` (directives.ts:159-208).  Entering
records an `enter` event; the union branch dispatches `visitUnion` only and
deliberately does not recurse into `memberTypeNames` (directives.ts:188-198,
the commented-out `type.getTypes().forEach(visit)`). -/
def visitNamedType (ctx : WalkCtx) (t : NamedType) (st : WalkState) :
    Except String Unit × WalkState :=
  let st0 : WalkState := { st with trace := st.trace ++ [WalkEvent.enter t.name] }
  match t with
  | .objectType nm ast fields =>
    (match callVisitorMethods ctx "visitObject" nm ast st0 with
     | (.error e, st') => (.error e, st')
     | (.ok _, st') => visitFields ctx fields st')
  | .interfaceType nm ast fields =>
    (match callVisitorMethods ctx "visitInterface" nm ast st0 with
     | (.error e, st') => (.error e, st')
     | (.ok _, st') => visitFields ctx fields st')
  | .inputObjectType nm ast fields =>
    (match callVisitorMethods ctx "visitInputObject" nm ast st0 with
     | (.error e, st') => (.error e, st')
     | (.ok _, st') => visitInputFields ctx fields st')
  | .scalarType nm ast => callVisitorMethods ctx "visitScalar" nm ast st0
  | .unionType nm ast _ => callVisitorMethods ctx "visitUnion" nm ast st0
  | .enumType nm ast values =>
    (match callVisitorMethods ctx "visitEnum" nm ast st0 with
     | (.error e, st') => (.error e, st')
     | (.ok _, st') => visitEnumValues ctx values st')

/-- `typeName.startsWith('__')` (directives.ts:152), written out on the
character list: the name's first two characters are underscores. -/
def isReservedName (s : String) : Bool :=
  match s.toList with
  | '_' :: '_' :: _ => true
  | _ => false

/-- The type-map loop of `visit`'s schema branch (directives.ts:151-157):
iterate `type.getTypeMap()` in declaration order, skipping names starting
with `__`. -/
def visitTypeMap (ctx : WalkCtx) : List (String × NamedType) → WalkState →
    Except String Unit × WalkState
  | [], st => (.ok (), st)
  | (typeName, t) :: rest, st =>
    if isReservedName typeName then visitTypeMap ctx rest st
    else
      match visitNamedType ctx t st with
      | (.error e, st') => (.error e, st')
      | (.ok _, st') => visitTypeMap ctx rest st'

/-- The node-name tag used for dispatch events at the root `GraphQLSchema`
object (which has no name of its own). -/
def schemaNodeName : String := "#schema"

/-- `SchemaDirectiveVisitor.visitSchema` (directives.ts:109-322): build
`declaredDirectives` and the empty `createdVisitors`, visit the schema node,
then every non-reserved entry of the type map, and return `createdVisitors`.
A thrown decode error propagates to the caller instead of a result; the final
state is returned alongside for observation. -/
def visitSchema (schema : Schema) (directiveVisitors : List (String × VisitorClass)) :
    Except String (List (String × List VisitorInstance)) × WalkState :=
  let ctx : WalkCtx :=
    ⟨directiveVisitors, jsObjOf (schema.directives.map fun d => (d.name, d))⟩
  let st0 : WalkState := ⟨jsObjOf (directiveVisitors.map fun p => (p.1, [])), []⟩
  match callVisitorMethods ctx "visitSchema" schemaNodeName schema.astNode st0 with
  | (.error e, st') => (.error e, st')
  | (.ok _, st') =>
    match visitTypeMap ctx schema.typeMap st' with
    | (.error e, st'') => (.error e, st'')
    | (.ok _, st'') => (.ok st''.createdVisitors, st'')

/-! ## Helper lemmas: JS objects -/

theorem assocLookup_append {α : Type} (l1 l2 : List (String × α)) (k : String) :
    assocLookup (l1 ++ l2) k =
      (match assocLookup l1 k with
       | some v => some v
       | none => assocLookup l2 k) := by
  induction l1 with
  | nil => simp [assocLookup]
  | cons p rest ih =>
    by_cases hp : p.1 == k <;> simp [assocLookup, hp, ih]

theorem assocLookup_eq_none_of_not_any {α : Type} (obj : List (String × α)) (k : String)
    (h : obj.any (fun p => p.1 == k) = false) : assocLookup obj k = none := by
  induction obj with
  | nil => simp [assocLookup]
  | cons p rest ih =>
    simp only [List.any_cons, Bool.or_eq_false_iff] at h
    simp [assocLookup, h.1, ih h.2]

theorem assocLookup_overwriteMap {α : Type} (obj : List (String × α)) (k k' : String) (v : α) :
    assocLookup (obj.map fun p => if p.1 == k then (k, v) else p) k' =
      (if k' == k then (if obj.any (fun p => p.1 == k) then some v else none)
       else assocLookup obj k') := by
  induction obj with
  | nil => by_cases h : k' == k <;> simp [assocLookup, h]
  | cons p rest ih =>
    by_cases hp : p.1 == k
    · have hpk : p.1 = k := by simpa using hp
      by_cases hk : k' == k
      · have hkk : k' = k := by simpa using hk
        subst hkk
        simp only [List.map_cons, if_pos hp, assocLookup, List.any_cons, hp, Bool.true_or]
        simp
      · have h2 : ¬ ((k == k') = true) := fun he => hk (by simp only [beq_iff_eq] at he ⊢; exact he.symm)
        have h3 : ¬ ((p.1 == k') = true) := by rw [hpk]; exact h2
        simp only [List.map_cons, if_pos hp, assocLookup, if_neg h2, if_neg hk, if_neg h3]
        exact ih.trans (by rw [if_neg hk])
    · by_cases hk : k' == k
      · have hkk : k' = k := by simpa using hk
        subst hkk
        simp only [List.map_cons, if_neg hp, assocLookup, if_neg hp, List.any_cons]
        rw [ih]
        have hp2 : (p.1 == k') = false := by simpa using hp
        simp only [if_pos hk, hp2, Bool.false_or]
      · simp only [List.map_cons, if_neg hp, assocLookup, if_neg hk]
        by_cases h3 : p.1 == k'
        · simp [h3]
        · simp only [if_neg h3]
          rw [ih, if_neg hk]

theorem assocLookup_jsAssign {α : Type} (obj : List (String × α)) (k k' : String) (v : α) :
    assocLookup (jsAssign obj k v) k' =
      (if k' == k then some v else assocLookup obj k') := by
  unfold jsAssign
  by_cases h : obj.any (fun p => p.1 == k)
  · rw [if_pos h, assocLookup_overwriteMap, h]
    by_cases hk : k' == k <;> simp [hk]
  · rw [if_neg h, assocLookup_append]
    by_cases hk : k' == k
    · have hkk : k' = k := by simpa using hk
      subst hkk
      rw [assocLookup_eq_none_of_not_any _ _ (Bool.eq_false_iff.mpr h)]
      simp [assocLookup, hk]
    · have h2 : ¬ ((k == k') = true) := fun he => hk (by simp only [beq_iff_eq] at he ⊢; exact he.symm)
      rw [if_neg hk]
      cases hobj : assocLookup obj k' <;> simp [assocLookup, h2, hobj]

theorem jsAssign_map_fst {α : Type} (obj : List (String × α)) (k : String) (v : α) :
    (jsAssign obj k v).map Prod.fst =
      (if obj.any (fun p => p.1 == k) then obj.map Prod.fst
       else obj.map Prod.fst ++ [k]) := by
  unfold jsAssign
  by_cases h : obj.any (fun p => p.1 == k)
  · rw [if_pos h, if_pos h, List.map_map]
    refine List.map_congr_left ?_
    intro p _
    by_cases hp : p.1 == k
    · have : p.1 = k := by simpa using hp
      simp [Function.comp, hp, this]
    · simp [Function.comp, hp]
  · simp [h]


/-! ## Helper lemmas: the literal decoder -/

/-- The shape of every message the core can throw. -/
def IsKindError (e : String) : Prop := ∃ k, e = "Unexpected value kind: " ++ k

theorem decode_error_shapes :
    (∀ v, ∀ e, valueFromASTUntyped v = .error e → IsKindError e) ∧
    (∀ obj fs, ∀ e, valueFieldsFromAST obj fs = .error e → IsKindError e) ∧
    (∀ vs, ∀ e, valueListFromAST vs = .error e → IsKindError e) := by
  refine valueFromASTUntyped.mutual_induct
    (fun v => ∀ e, valueFromASTUntyped v = .error e → IsKindError e)
    (fun obj fs => ∀ e, valueFieldsFromAST obj fs = .error e → IsKindError e)
    (fun vs => ∀ e, valueListFromAST vs = .error e → IsKindError e)
    ?_ ?_ ?_ ?_ ?_ ?_ ?_ ?_ ?_ ?_ ?_ ?_ ?_ ?_ ?_ ?_ ?_ ?_
  case refine_1 => intro e h; simp [valueFromASTUntyped] at h
  case refine_2 => intro s e h; simp [valueFromASTUntyped] at h
  case refine_3 => intro s e h; simp [valueFromASTUntyped] at h
  case refine_4 => intro s e h; simp [valueFromASTUntyped] at h
  case refine_5 => intro s e h; simp [valueFromASTUntyped] at h
  case refine_6 => intro b e h; simp [valueFromASTUntyped] at h
  case refine_7 =>
    intro vs e1 hvs ih e h
    simp only [valueFromASTUntyped, hvs, Except.error.injEq] at h
    exact h ▸ ih e1 hvs
  case refine_8 =>
    intro vs ws hvs ih e h
    simp [valueFromASTUntyped, hvs] at h
  case refine_9 =>
    intro fs e1 hfs ih e h
    simp only [valueFromASTUntyped, hfs, Except.error.injEq] at h
    exact h ▸ ih e1 hfs
  case refine_10 =>
    intro fs m hfs ih e h
    simp [valueFromASTUntyped, hfs] at h
  case refine_11 =>
    intro kind e h
    simp only [valueFromASTUntyped, Except.error.injEq] at h
    exact ⟨kind, h.symm⟩
  case refine_12 => intro e h; simp [valueListFromAST] at h
  case refine_13 =>
    intro v rest e1 hv ih e h
    simp only [valueListFromAST, hv, Except.error.injEq] at h
    exact h ▸ ih e1 hv
  case refine_14 =>
    intro v rest w hv e1 hrest ihv ihrest e h
    simp only [valueListFromAST, hv, hrest, Except.error.injEq] at h
    exact h ▸ ihrest e1 hrest
  case refine_15 =>
    intro v rest w hv ws hrest ihv ihrest e h
    simp [valueListFromAST, hv, hrest] at h
  case refine_16 => intro obj e h; simp [valueFieldsFromAST] at h
  case refine_17 =>
    intro obj n v rest e1 hv ihv e h
    simp only [valueFieldsFromAST, hv, Except.error.injEq] at h
    exact h ▸ ihv e1 hv
  case refine_18 =>
    intro obj n v rest w hv ihv ihrest e h
    simp only [valueFieldsFromAST, hv] at h
    exact ihrest e h

/-- Pointwise reading of a successful list decode. -/
theorem valueListFromAST_forall2 :
    ∀ (vs : List ValueNode) (ws : List Value), valueListFromAST vs = .ok ws →
      List.Forall₂ (fun v w => valueFromASTUntyped v = .ok w) vs ws := by
  intro vs
  induction vs with
  | nil => intro ws h; simp only [valueListFromAST, Except.ok.injEq] at h; simp [← h]
  | cons v rest ih =>
    intro ws h
    simp only [valueListFromAST] at h
    cases hv : valueFromASTUntyped v with
    | error e => rw [hv] at h; exact absurd h (by simp)
    | ok w =>
      rw [hv] at h
      cases hrest : valueListFromAST rest with
      | error e => rw [hrest] at h; exact absurd h (by simp)
      | ok ws' =>
        rw [hrest] at h
        simp only [Except.ok.injEq] at h
        subst h
        exact List.Forall₂.cons hv (ih ws' hrest)

/-! ## Helper lemmas: key order and last-wins for JS object folds -/

/-- First-occurrence deduplication of a key list, preserving encounter
order: the specification of a JS object's enumeration order. -/
def firstKeys : List String → List String
  | [] => []
  | n :: rest => n :: (firstKeys rest).filter (fun x => !(x == n))

/-- The last binding of a key in a field list: the specification of
last-occurrence-wins. -/
def lastLookup {α : Type} : List (String × α) → String → Option α
  | [], _ => none
  | p :: rest, k =>
    match lastLookup rest k with
    | some v => some v
    | none => if p.1 == k then some p.2 else none

/-- The key list produced by a sequence of JS assignments starting from keys
`ks`. -/
def addKeys (ks : List String) : List String → List String
  | [] => ks
  | n :: rest => addKeys (if ks.any (fun x => x == n) then ks else ks ++ [n]) rest

theorem beq_comm_str (a b : String) : (a == b) = (b == a) := by
  by_cases h : a = b
  · simp [h]
  · simp [h, Ne.symm h]

theorem addKeys_eq (ns : List String) :
    ∀ ks, addKeys ks ns = ks ++ (firstKeys ns).filter (fun x => !(ks.any (fun y => y == x))) := by
  induction ns with
  | nil => intro ks; simp [addKeys, firstKeys]
  | cons n rest ih =>
    intro ks
    by_cases h : ks.any (fun x => x == n)
    · rw [addKeys, if_pos h, ih, firstKeys]
      have hn : (!(ks.any (fun y => y == n))) = false := by simp [h]
      simp only [List.filter_cons, hn]
      congr 1
      rw [List.filter_filter]
      refine (List.filter_congr ?_).symm
      intro x hx
      by_cases hxn : x == n
      · have : x = n := by simpa using hxn
        subst this
        simp [h]
      · simp [hxn]
    · rw [addKeys, if_neg h, ih, firstKeys]
      have hb : ks.any (fun y => y == n) = false := Bool.eq_false_iff.mpr h
      have hn : (!(ks.any (fun y => y == n))) = true := by rw [hb]; rfl
      simp only [List.filter_cons, hn]
      rw [List.append_assoc]
      congr 1
      simp only [List.singleton_append]
      congr 1
      rw [List.filter_filter]
      refine List.filter_congr ?_
      intro x hx
      have hzx : (n == x) = (x == n) := beq_comm_str n x
      simp only [List.any_append, List.any_cons, List.any_nil, Bool.or_false, Bool.not_or, hzx]

theorem firstKeys_of_empty_start (ns : List String) :
    addKeys [] ns = firstKeys ns := by
  rw [addKeys_eq]
  simp



theorem any_map_fst_eq {α : Type} (l : List (String × α)) (n : String) :
    (l.map Prod.fst).any (fun x => x == n) = l.any (fun p => p.1 == n) := by
  induction l with
  | nil => rfl
  | cons p rest ih => simp only [List.map_cons, List.any_cons, ih]

theorem valueFieldsFromAST_keys :
    ∀ (fs : List (String × ValueNode)) (acc m : List (String × Value)),
      valueFieldsFromAST acc fs = .ok m →
      m.map Prod.fst = addKeys (acc.map Prod.fst) (fs.map Prod.fst) := by
  intro fs
  induction fs with
  | nil =>
    intro acc m h
    simp only [valueFieldsFromAST, Except.ok.injEq] at h
    subst h
    simp [addKeys]
  | cons p rest ih =>
    intro acc m h
    obtain ⟨n, v⟩ := p
    simp only [valueFieldsFromAST] at h
    cases hv : valueFromASTUntyped v with
    | error e => rw [hv] at h; exact absurd h (by simp)
    | ok w =>
      rw [hv] at h
      rw [ih (jsAssign acc n w) m h, List.map_cons, addKeys]
      congr 1
      rw [jsAssign_map_fst, any_map_fst_eq]

theorem valueFieldsFromAST_lookup :
    ∀ (fs : List (String × ValueNode)) (acc m : List (String × Value)),
      valueFieldsFromAST acc fs = .ok m →
      ∀ k, ((∀ raw, lastLookup fs k = some raw →
               ∃ w, valueFromASTUntyped raw = .ok w ∧ assocLookup m k = some w)
          ∧ (lastLookup fs k = none → assocLookup m k = assocLookup acc k)) := by
  intro fs
  induction fs with
  | nil =>
    intro acc m h k
    simp only [valueFieldsFromAST, Except.ok.injEq] at h
    subst h
    exact ⟨fun raw hraw => by simp [lastLookup] at hraw, fun _ => rfl⟩
  | cons p rest ih =>
    intro acc m h k
    obtain ⟨n, v⟩ := p
    simp only [valueFieldsFromAST] at h
    cases hv : valueFromASTUntyped v with
    | error e => rw [hv] at h; exact absurd h (by simp)
    | ok w =>
      rw [hv] at h
      have IH := ih (jsAssign acc n w) m h
      constructor
      · intro raw hraw
        simp only [lastLookup] at hraw
        cases hrest : lastLookup rest k with
        | some raw' =>
          rw [hrest] at hraw
          cases hraw
          exact (IH k).1 raw hrest
        | none =>
          rw [hrest] at hraw
          by_cases hn : n == k
          · rw [if_pos hn] at hraw
            cases hraw
            refine ⟨w, hv, ?_⟩
            rw [(IH k).2 hrest, assocLookup_jsAssign,
              if_pos (by rw [beq_comm_str]; exact hn)]
          · rw [if_neg hn] at hraw
            exact absurd hraw (by simp)
      · intro hnone
        simp only [lastLookup] at hnone
        cases hrest : lastLookup rest k with
        | some raw' => rw [hrest] at hnone; exact absurd hnone (by simp)
        | none =>
          rw [hrest] at hnone
          by_cases hn : n == k
          · rw [if_pos hn] at hnone
            exact absurd hnone (by simp)
          · rw [(IH k).2 hrest, assocLookup_jsAssign,
              if_neg (by rw [beq_comm_str]; exact hn)]

theorem decodeArguments_keys :
    ∀ (raws : List (String × ValueNode)) (acc m : List (String × Value)),
      decodeArguments acc raws = .ok m →
      m.map Prod.fst = addKeys (acc.map Prod.fst) (raws.map Prod.fst) := by
  intro raws
  induction raws with
  | nil =>
    intro acc m h
    simp only [decodeArguments, Except.ok.injEq] at h
    subst h
    simp [addKeys]
  | cons p rest ih =>
    intro acc m h
    obtain ⟨n, v⟩ := p
    simp only [decodeArguments] at h
    cases hv : valueFromASTUntyped v with
    | error e => rw [hv] at h; exact absurd h (by simp)
    | ok w =>
      rw [hv] at h
      rw [ih (jsAssign acc n w) m h, List.map_cons, addKeys]
      congr 1
      rw [jsAssign_map_fst, any_map_fst_eq]

theorem decodeArguments_lookup :
    ∀ (raws : List (String × ValueNode)) (acc m : List (String × Value)),
      decodeArguments acc raws = .ok m →
      ∀ k, ((∀ raw, lastLookup raws k = some raw →
               ∃ w, valueFromASTUntyped raw = .ok w ∧ assocLookup m k = some w)
          ∧ (lastLookup raws k = none → assocLookup m k = assocLookup acc k)) := by
  intro raws
  induction raws with
  | nil =>
    intro acc m h k
    simp only [decodeArguments, Except.ok.injEq] at h
    subst h
    exact ⟨fun raw hraw => by simp [lastLookup] at hraw, fun _ => rfl⟩
  | cons p rest ih =>
    intro acc m h k
    obtain ⟨n, v⟩ := p
    simp only [decodeArguments] at h
    cases hv : valueFromASTUntyped v with
    | error e => rw [hv] at h; exact absurd h (by simp)
    | ok w =>
      rw [hv] at h
      have IH := ih (jsAssign acc n w) m h
      constructor
      · intro raw hraw
        simp only [lastLookup] at hraw
        cases hrest : lastLookup rest k with
        | some raw' =>
          rw [hrest] at hraw
          cases hraw
          exact (IH k).1 raw hrest
        | none =>
          rw [hrest] at hraw
          by_cases hn : n == k
          · rw [if_pos hn] at hraw
            cases hraw
            refine ⟨w, hv, ?_⟩
            rw [(IH k).2 hrest, assocLookup_jsAssign,
              if_pos (by rw [beq_comm_str]; exact hn)]
          · rw [if_neg hn] at hraw
            exact absurd hraw (by simp)
      · intro hnone
        simp only [lastLookup] at hnone
        cases hrest : lastLookup rest k with
        | some raw' => rw [hrest] at hnone; exact absurd hnone (by simp)
        | none =>
          rw [hrest] at hnone
          by_cases hn : n == k
          · rw [if_pos hn] at hnone
            exact absurd hnone (by simp)
          · rw [(IH k).2 hrest, assocLookup_jsAssign,
              if_neg (by rw [beq_comm_str]; exact hn)]

theorem decodeArguments_error_shape (raws : List (String × ValueNode)) :
    ∀ acc e, decodeArguments acc raws = .error e → IsKindError e := by
  induction raws with
  | nil => intro acc e h; simp [decodeArguments] at h
  | cons p rest ih =>
    intro acc e h
    obtain ⟨n, v⟩ := p
    simp only [decodeArguments] at h
    cases hv : valueFromASTUntyped v with
    | error e' =>
      rw [hv] at h
      simp only [Except.error.injEq] at h
      exact h ▸ decode_error_shapes.1 v e' hv
    | ok w =>
      rw [hv] at h
      exact ih (jsAssign acc n w) e h


/-! ## Helper lemmas: decimal round trip for the integer case -/

/-- The decimal digit characters of `n`, most significant first. -/
def natDigits (n : Nat) : List Char :=
  if h : n < 10 then [Nat.digitChar n]
  else natDigits (n / 10) ++ [Nat.digitChar (n % 10)]
termination_by n
decreasing_by exact Nat.div_lt_self (by omega) (by omega)

/-- The canonical decimal rendering of an integer. -/
def intDecimal : Int → String
  | .ofNat m => ⟨natDigits m⟩
  | .negSucc m => ⟨'-' :: natDigits (m + 1)⟩

theorem digitChar_isDigit (d : Nat) (h : d < 10) : (Nat.digitChar d).isDigit = true := by
  interval_cases d <;> decide

theorem digitChar_toNat (d : Nat) (h : d < 10) : (Nat.digitChar d).toNat - 48 = d := by
  interval_cases d <;> decide

theorem natDigits_all_digits (n : Nat) : ∀ c ∈ natDigits n, c.isDigit = true := by
  induction n using Nat.strong_induction_on with
  | _ n ih =>
    rw [natDigits]
    by_cases h : n < 10
    · simp only [dif_pos h]
      intro c hc
      simp only [List.mem_singleton] at hc
      subst hc
      exact digitChar_isDigit n h
    · simp only [dif_neg h]
      intro c hc
      rcases List.mem_append.mp hc with h1 | h2
      · exact ih (n / 10) (Nat.div_lt_self (by omega) (by omega)) c h1
      · simp only [List.mem_singleton] at h2
        subst h2
        exact digitChar_isDigit _ (Nat.mod_lt _ (by omega))

theorem natDigits_ne_nil (n : Nat) : natDigits n ≠ [] := by
  rw [natDigits]
  by_cases h : n < 10 <;> simp [h]

theorem natDigits_isEmpty (n : Nat) : (natDigits n).isEmpty = false := by
  cases hnd : natDigits n with
  | nil => exact absurd hnd (natDigits_ne_nil n)
  | cons c cs => rfl

theorem digitsToNat_append (ds es : List Char) :
    ∀ acc, digitsToNat (ds ++ es) acc = digitsToNat es (digitsToNat ds acc) := by
  induction ds with
  | nil => intro acc; rfl
  | cons c rest ih => intro acc; rw [List.cons_append, digitsToNat, digitsToNat, ih]

theorem natDigits_denote (n : Nat) :
    ∀ acc, digitsToNat (natDigits n) acc = acc * 10 ^ (natDigits n).length + n := by
  induction n using Nat.strong_induction_on with
  | _ n ih =>
    intro acc
    rw [natDigits]
    by_cases h : n < 10
    · simp only [dif_pos h, digitsToNat, List.length_singleton, pow_one]
      rw [digitChar_toNat n h]
    · simp only [dif_neg h]
      rw [digitsToNat_append]
      simp only [digitsToNat]
      rw [digitChar_toNat _ (Nat.mod_lt _ (by omega))]
      rw [ih (n / 10) (Nat.div_lt_self (by omega) (by omega)) acc]
      rw [List.length_append, List.length_singleton]
      have hdm : n / 10 * 10 + n % 10 = n := by omega
      calc (acc * 10 ^ (natDigits (n / 10)).length + n / 10) * 10 + n % 10
          = acc * (10 ^ (natDigits (n / 10)).length * 10) + (n / 10 * 10 + n % 10) := by ring
        _ = acc * 10 ^ ((natDigits (n / 10)).length + 1) + n := by rw [hdm, pow_succ]

theorem isDigit_not_ws (c : Char) (h : c.isDigit = true) : isWhitespaceChar c = false := by
  by_contra hc
  rw [Bool.not_eq_false] at hc
  simp only [isWhitespaceChar, Bool.or_eq_true, beq_iff_eq] at hc
  rcases hc with ((h1 | h1) | h1) | h1 <;> (subst h1; exact absurd h (by decide))

theorem splitSign_digit (c : Char) (cs : List Char) (h : c.isDigit = true) :
    splitSign (c :: cs) = (false, c :: cs) := by
  have h1 : (c == '-') = false := by
    refine beq_eq_false_iff_ne.mpr fun he => ?_
    subst he; exact absurd h (by decide)
  have h2 : (c == '+') = false := by
    refine beq_eq_false_iff_ne.mpr fun he => ?_
    subst he; exact absurd h (by decide)
  simp [splitSign, h1, h2]

theorem takeWhile_all_digits (l : List Char) (h : ∀ c ∈ l, c.isDigit = true) :
    l.takeWhile Char.isDigit = l := by
  induction l with
  | nil => rfl
  | cons c rest ih =>
    rw [List.takeWhile_cons, if_pos (h c (by simp))]
    rw [ih fun c hc => h c (by simp [hc])]

theorem jsParseInt10_intDecimal (n : Int) (hb : n.natAbs ≤ 2 ^ 53) :
    jsParseInt10 (intDecimal n) = .int n := by
  cases n with
  | ofNat m =>
    have hm : m ≤ 2 ^ 53 := by simpa using hb
    have hall := natDigits_all_digits m
    cases hnd : natDigits m with
    | nil => exact absurd hnd (natDigits_ne_nil m)
    | cons c cs =>
      have hcd : c.isDigit = true := hall c (by rw [hnd]; simp)
      have htl : (intDecimal (Int.ofNat m)).toList = c :: cs := by
        show (String.mk (natDigits m)).toList = c :: cs
        rw [show (String.mk (natDigits m)).toList = natDigits m from rfl, hnd]
      unfold jsParseInt10
      rw [htl]
      rw [List.dropWhile_cons]
      rw [isDigit_not_ws c hcd]
      simp only [Bool.false_eq_true, if_neg, reduceIte]
      rw [splitSign_digit c cs hcd]
      have hta : (c :: cs).takeWhile Char.isDigit = c :: cs := by
        rw [← hnd]
        exact takeWhile_all_digits _ hall
      simp only [hta]
      have hde : digitsToNat (c :: cs) 0 = m := by
        rw [← hnd]
        rw [natDigits_denote m 0]
        ring
      have hnd2 : natToDouble m = some m := by
        rw [natToDouble, if_pos hm]
      simp [hde, hnd2]
  | negSucc m =>
    have hm : m + 1 ≤ 2 ^ 53 := by simpa using hb
    have hall := natDigits_all_digits (m + 1)
    have htl : (intDecimal (Int.negSucc m)).toList = '-' :: natDigits (m + 1) := rfl
    unfold jsParseInt10
    rw [htl]
    rw [List.dropWhile_cons]
    have hws : isWhitespaceChar '-' = false := by decide
    rw [hws]
    simp only [Bool.false_eq_true, if_neg, reduceIte]
    have hsp : splitSign ('-' :: natDigits (m + 1)) = (true, natDigits (m + 1)) := by
      simp [splitSign]
    rw [hsp]
    have hta : (natDigits (m + 1)).takeWhile Char.isDigit = natDigits (m + 1) :=
      takeWhile_all_digits _ hall
    simp only [hta]
    have hne : (natDigits (m + 1)).isEmpty = false := by
      cases hnd : natDigits (m + 1) with
      | nil => exact absurd hnd (natDigits_ne_nil _)
      | cons c cs => rfl
    rw [hne]
    have hde : digitsToNat (natDigits (m + 1)) 0 = m + 1 := by
      rw [natDigits_denote (m + 1) 0]
      ring
    have hnd2 : natToDouble (m + 1) = some (m + 1) := by
      rw [natToDouble, if_pos hm]
    simp only [Bool.false_eq_true, if_neg, reduceIte, hde, hnd2]
    rw [Int.negSucc_eq]
    congr 1


/-! ## Helper lemmas: the resolver (`getVisitors`) -/

/-- Specification-side predicate: the occurrence names a registered class
that overrides the dispatch method, so the resolver keeps it. -/
def isActiveOccurrence (ctx : WalkCtx) (methodName : String) (d : DirectiveNode) : Bool :=
  match assocLookup ctx.directiveVisitors d.name with
  | none => false
  | some cls => shouldCall cls methodName

theorem buildVisitor_inactive (ctx : WalkCtx) (nn mn : String) (d : DirectiveNode)
    (h : isActiveOccurrence ctx mn d = false) :
    buildVisitor ctx nn mn d = .ok none := by
  cases hl : assocLookup ctx.directiveVisitors d.name with
  | none => simp only [buildVisitor, hl]
  | some cls =>
    have hs : shouldCall cls mn = false := by
      simpa only [isActiveOccurrence, hl] using h
    simp [buildVisitor, hl, hs]

theorem buildVisitor_ok_some (ctx : WalkCtx) (nn mn : String) (d : DirectiveNode)
    (v : VisitorInstance) (h : buildVisitor ctx nn mn d = .ok (some v)) :
    isActiveOccurrence ctx mn d = true ∧ v.name = d.name ∧ v.visitedTypeName = nn := by
  cases hl : assocLookup ctx.directiveVisitors d.name with
  | none => simp [buildVisitor, hl] at h
  | some cls =>
    by_cases hs : shouldCall cls mn
    · refine ⟨by simp only [isActiveOccurrence, hl]; exact hs, ?_⟩
      cases hd : assocLookup ctx.declaredDirectives d.name with
      | some decl =>
        simp only [buildVisitor, hl, hs, if_true, hd, Except.ok.injEq, Option.some.injEq] at h
        rw [← h]
        exact ⟨rfl, rfl⟩
      | none =>
        cases hdec : decodeArguments [] d.arguments with
        | error e => simp [buildVisitor, hl, hs, hd, hdec] at h
        | ok args =>
          simp only [buildVisitor, hl, hs, if_true, hd, hdec, Except.ok.injEq,
            Option.some.injEq] at h
          rw [← h]
          exact ⟨rfl, rfl⟩
    · simp [buildVisitor, hl, hs] at h

theorem buildVisitor_active_ok (ctx : WalkCtx) (nn mn : String) (d : DirectiveNode)
    (h : isActiveOccurrence ctx mn d = true) :
    ∀ r, buildVisitor ctx nn mn d = .ok r → ∃ v, r = some v := by
  intro r hr
  cases hl : assocLookup ctx.directiveVisitors d.name with
  | none => simp [isActiveOccurrence, hl] at h
  | some cls =>
    have hs : shouldCall cls mn = true := by
      simpa only [isActiveOccurrence, hl] using h
    cases hd : assocLookup ctx.declaredDirectives d.name with
    | some decl =>
      simp only [buildVisitor, hl, hs, if_true, hd, Except.ok.injEq] at hr
      exact ⟨_, hr.symm⟩
    | none =>
      cases hdec : decodeArguments [] d.arguments with
      | error e => simp [buildVisitor, hl, hs, hd, hdec] at hr
      | ok args =>
        simp only [buildVisitor, hl, hs, if_true, hd, hdec, Except.ok.injEq] at hr
        exact ⟨_, hr.symm⟩

theorem buildVisitor_error_shape (ctx : WalkCtx) (nn mn : String) (d : DirectiveNode)
    (e : String) (h : buildVisitor ctx nn mn d = .error e) : IsKindError e := by
  cases hl : assocLookup ctx.directiveVisitors d.name with
  | none => simp [buildVisitor, hl] at h
  | some cls =>
    by_cases hs : shouldCall cls mn
    · cases hd : assocLookup ctx.declaredDirectives d.name with
      | some decl => simp [buildVisitor, hl, hs, hd] at h
      | none =>
        cases hdec : decodeArguments [] d.arguments with
        | error e' =>
          simp only [buildVisitor, hl, hs, if_true, hd, hdec, Except.error.injEq] at h
          exact h ▸ decodeArguments_error_shape d.arguments [] e' hdec
        | ok args => simp [buildVisitor, hl, hs, hd, hdec] at h
    · simp [buildVisitor, hl, hs] at h

theorem buildVisitors_ok (ctx : WalkCtx) (nn mn : String) :
    ∀ (ds : List DirectiveNode) (vs : List VisitorInstance),
      buildVisitors ctx nn mn ds = .ok vs →
      vs.map (fun v => v.name) =
        (ds.filter (isActiveOccurrence ctx mn)).map DirectiveNode.name
      ∧ (∀ v ∈ vs, v.visitedTypeName = nn) := by
  intro ds
  induction ds with
  | nil =>
    intro vs h
    simp only [buildVisitors, Except.ok.injEq] at h
    subst h
    exact ⟨rfl, by simp⟩
  | cons d rest ih =>
    intro vs h
    simp only [buildVisitors] at h
    cases hb : buildVisitor ctx nn mn d with
    | error e => rw [hb] at h; exact absurd h (by simp)
    | ok r =>
      rw [hb] at h
      cases r with
      | none =>
        have hact : isActiveOccurrence ctx mn d = false := by
          by_contra hc
          rw [Bool.not_eq_false] at hc
          obtain ⟨v, hv⟩ := buildVisitor_active_ok ctx nn mn d hc none hb
          exact absurd hv (by simp)
        obtain ⟨h1, h2⟩ := ih vs h
        refine ⟨?_, h2⟩
        rw [List.filter_cons, if_neg (by rw [hact]; exact Bool.false_ne_true)]
        exact h1
      | some v =>
        cases hrest : buildVisitors ctx nn mn rest with
        | error e => rw [hrest] at h; exact absurd h (by simp)
        | ok vs' =>
          rw [hrest] at h
          simp only [Except.ok.injEq] at h
          subst h
          obtain ⟨hact, hname, hvt⟩ := buildVisitor_ok_some ctx nn mn d v hb
          obtain ⟨h1, h2⟩ := ih vs' hrest
          constructor
          · rw [List.filter_cons, if_pos hact, List.map_cons, List.map_cons, h1, hname]
          · intro w hw
            rcases List.mem_cons.mp hw with hw | hw
            · exact hw ▸ hvt
            · exact h2 w hw

theorem buildVisitors_error_shape (ctx : WalkCtx) (nn mn : String) :
    ∀ (ds : List DirectiveNode) (e : String),
      buildVisitors ctx nn mn ds = .error e → IsKindError e := by
  intro ds
  induction ds with
  | nil => intro e h; simp [buildVisitors] at h
  | cons d rest ih =>
    intro e h
    simp only [buildVisitors] at h
    cases hb : buildVisitor ctx nn mn d with
    | error e' =>
      rw [hb] at h
      simp only [Except.error.injEq] at h
      exact h ▸ buildVisitor_error_shape ctx nn mn d e' hb
    | ok r =>
      rw [hb] at h
      cases r with
      | none => exact ih e h
      | some v =>
        cases hrest : buildVisitors ctx nn mn rest with
        | error e' =>
          rw [hrest] at h
          simp only [Except.error.injEq] at h
          exact h ▸ ih e' hrest
        | ok vs' => rw [hrest] at h; exact absurd h (by simp)


theorem assocLookup_pushVisitor (cv : List (String × List VisitorInstance))
    (v : VisitorInstance) (name : String) :
    assocLookup (pushVisitor cv v) name =
      (assocLookup cv name).map (fun l => if v.name == name then l ++ [v] else l) := by
  induction cv with
  | nil => simp [pushVisitor, assocLookup]
  | cons p rest ih =>
    by_cases hp : p.1 == v.name
    · have hpv : p.1 = v.name := by simpa using hp
      by_cases hn : p.1 == name
      · have hn2 : p.1 = name := by simpa using hn
        have hv : (v.name == name) = true := by
          rw [← hpv, hn2]; exact beq_self_eq_true name
        simp [pushVisitor, assocLookup, hp, hn, hv]
      · simp only [pushVisitor, List.map_cons, if_pos hp]
        simp only [assocLookup, hn, if_neg hn]
        exact ih
    · by_cases hn : p.1 == name
      · have hn2 : p.1 = name := by simpa using hn
        have hv : (v.name == name) = false := by
          refine beq_eq_false_iff_ne.mpr fun he => ?_
          have hpe : p.1 = v.name := by rw [hn2, ← he]
          exact hp (by rw [hpe]; exact beq_self_eq_true v.name)
        simp [pushVisitor, assocLookup, hp, hn, hv]
      · simp only [pushVisitor, List.map_cons, if_neg hp]
        simp only [assocLookup, hn, if_neg hn]
        exact ih

theorem assocLookup_registerVisitors (vs : List VisitorInstance) :
    ∀ (cv : List (String × List VisitorInstance)) (name : String),
      assocLookup (registerVisitors cv vs) name =
        (assocLookup cv name).map (fun l => l ++ vs.filter (fun v => v.name == name)) := by
  induction vs with
  | nil =>
    intro cv name
    show assocLookup cv name = _
    cases h : assocLookup cv name <;> simp [List.filter_nil]
  | cons v rest ih =>
    intro cv name
    show assocLookup (registerVisitors (pushVisitor cv v) rest) name = _
    rw [ih (pushVisitor cv v) name, assocLookup_pushVisitor]
    cases h : assocLookup cv name with
    | none => simp
    | some l =>
      simp only [Option.map_some, List.filter_cons]
      by_cases hv : v.name == name
      · simp [hv]
      · simp [hv]



theorem optionMap_append_nil (o : Option (List VisitorInstance)) :
    o.map (fun l => l ++ ([] : List VisitorInstance)) = o := by
  cases o <;> simp

/-- Case analysis of one `getVisitors` call: either nothing happened (no AST
node, no directives list, or a thrown decode error), or the built instances
were registered. -/
theorem getVisitors_cases (ctx : WalkCtx) (nn : String) (ast : Option ASTNodeInfo)
    (mn : String) (st : WalkState) (r : Except String (List VisitorInstance))
    (st' : WalkState) (h : getVisitors ctx nn ast mn st = (r, st')) :
    (st' = st ∧ ((∃ e, r = .error e ∧ IsKindError e) ∨ r = .ok [])) ∨
    (∃ ds vs, ast = some ⟨some ds⟩ ∧ buildVisitors ctx nn mn ds = .ok vs ∧ r = .ok vs ∧
       st' = { st with createdVisitors := registerVisitors st.createdVisitors vs }) := by
  cases ast with
  | none =>
    simp only [getVisitors] at h
    injection h with h1 h2
    exact Or.inl ⟨h2.symm, Or.inr h1.symm⟩
  | some a =>
    cases a with
    | mk dirs =>
      cases dirs with
      | none =>
        simp only [getVisitors] at h
        injection h with h1 h2
        exact Or.inl ⟨h2.symm, Or.inr h1.symm⟩
      | some ds =>
        cases hb : buildVisitors ctx nn mn ds with
        | error e =>
          simp only [getVisitors, hb] at h
          injection h with h1 h2
          exact Or.inl ⟨h2.symm, Or.inl ⟨e, h1.symm,
            buildVisitors_error_shape ctx nn mn ds e hb⟩⟩
        | ok vs =>
          simp only [getVisitors, hb] at h
          injection h with h1 h2
          exact Or.inr ⟨ds, vs, rfl, hb, h1.symm, h2.symm⟩

theorem getVisitors_created (ctx : WalkCtx) (nn : String) (ast : Option ASTNodeInfo)
    (mn : String) (st : WalkState) (vs : List VisitorInstance) (st1 : WalkState)
    (h : getVisitors ctx nn ast mn st = (.ok vs, st1)) :
    st1.createdVisitors = registerVisitors st.createdVisitors vs
    ∧ st1.trace = st.trace
    ∧ (∀ v ∈ vs, v.visitedTypeName = nn) := by
  rcases getVisitors_cases ctx nn ast mn st _ st1 h with ⟨hst, hr | hr⟩ | ⟨ds, vs', hast, hb, hr, hst⟩
  · obtain ⟨e, he, _⟩ := hr
    exact absurd he (by simp)
  · have hvs : vs = [] := Except.ok.inj hr
    subst hvs
    rw [hst]
    exact ⟨rfl, rfl, by simp⟩
  · have hvs : vs = vs' := Except.ok.inj hr
    subst hvs
    rw [hst]
    exact ⟨rfl, rfl, (buildVisitors_ok ctx nn mn ds vs hb).2⟩

theorem getVisitors_error (ctx : WalkCtx) (nn : String) (ast : Option ASTNodeInfo)
    (mn : String) (st : WalkState) (e : String) (st' : WalkState)
    (h : getVisitors ctx nn ast mn st = (.error e, st')) :
    IsKindError e ∧ st' = st := by
  rcases getVisitors_cases ctx nn ast mn st _ st' h with ⟨hst, hr | hr⟩ | ⟨ds, vs, hast, hb, hr, hst⟩
  · obtain ⟨e', he, hke⟩ := hr
    have he2 : e = e' := Except.error.inj he
    exact ⟨he2 ▸ hke, hst⟩
  · exact absurd hr (by simp)
  · exact absurd hr (by simp)

/-- Case analysis of one `callVisitorMethods` call. -/
theorem callVisitorMethods_cases (ctx : WalkCtx) (mn nn : String)
    (ast : Option ASTNodeInfo) (st : WalkState) (r : Except String Unit) (st' : WalkState)
    (h : callVisitorMethods ctx mn nn ast st = (r, st')) :
    (∃ e, r = .error e ∧ IsKindError e ∧ st' = st) ∨
    (∃ vs st1, r = .ok () ∧ getVisitors ctx nn ast mn st = (.ok vs, st1) ∧
       st' = { st1 with
         trace := st1.trace ++ vs.map fun v => WalkEvent.dispatch mn v.name nn }) := by
  cases hg : getVisitors ctx nn ast mn st with
  | mk rg st1 =>
    cases rg with
    | error e =>
      simp only [callVisitorMethods, hg] at h
      obtain ⟨hke, hst⟩ := getVisitors_error ctx nn ast mn st e st1 hg
      injection h with h1 h2
      exact Or.inl ⟨e, h1.symm, hke, h2.symm.trans hst⟩
    | ok vs =>
      simp only [callVisitorMethods, hg] at h
      injection h with h1 h2
      exact Or.inr ⟨vs, st1, h1.symm, rfl, h2.symm⟩

/-- Trace growth of one `callVisitorMethods` call: only dispatch events for
this method at this node are appended. -/
theorem callVisitorMethods_trace (ctx : WalkCtx) (mn nn : String)
    (ast : Option ASTNodeInfo) (st : WalkState) (r : Except String Unit) (st' : WalkState)
    (h : callVisitorMethods ctx mn nn ast st = (r, st')) :
    ∃ ext, st'.trace = st.trace ++ ext ∧
      ∀ ev ∈ ext, ∃ d, ev = WalkEvent.dispatch mn d nn := by
  rcases callVisitorMethods_cases ctx mn nn ast st r st' h with
    ⟨e, hr, hke, hst⟩ | ⟨vs, st1, hr, hg, hst⟩
  · exact ⟨[], by rw [hst, List.append_nil], by simp⟩
  · obtain ⟨_, htr, _⟩ := getVisitors_created ctx nn ast mn st vs st1 hg
    refine ⟨vs.map fun v => WalkEvent.dispatch mn v.name nn, ?_, ?_⟩
    · rw [hst]
      show st1.trace ++ _ = _
      rw [htr]
    · intro ev hev
      rcases List.mem_map.mp hev with ⟨v, hv, hveq⟩
      exact ⟨v.name, hveq.symm⟩

/-- `createdVisitors` growth of one `callVisitorMethods` call: per-name lists
are only appended to, and every appended instance was created for this
node. -/
theorem callVisitorMethods_created (ctx : WalkCtx) (mn nn : String)
    (ast : Option ASTNodeInfo) (st : WalkState) (r : Except String Unit) (st' : WalkState)
    (h : callVisitorMethods ctx mn nn ast st = (r, st')) :
    ∀ name, ∃ added, (∀ v ∈ added, v.visitedTypeName = nn) ∧
      assocLookup st'.createdVisitors name =
        (assocLookup st.createdVisitors name).map (fun l => l ++ added) := by
  intro name
  rcases callVisitorMethods_cases ctx mn nn ast st r st' h with
    ⟨e, hr, hke, hst⟩ | ⟨vs, st1, hr, hg, hst⟩
  · exact ⟨[], by simp, by rw [hst, optionMap_append_nil]⟩
  · obtain ⟨hcv, htr, hvt⟩ := getVisitors_created ctx nn ast mn st vs st1 hg
    refine ⟨vs.filter (fun v => v.name == name), ?_, ?_⟩
    · intro v hv
      exact hvt v (List.mem_filter.mp hv).1
    · rw [hst]
      show assocLookup st1.createdVisitors name = _
      rw [hcv, assocLookup_registerVisitors]

theorem callVisitorMethods_error (ctx : WalkCtx) (mn nn : String)
    (ast : Option ASTNodeInfo) (st : WalkState) (e : String) (st' : WalkState)
    (h : callVisitorMethods ctx mn nn ast st = (.error e, st')) :
    IsKindError e ∧ st' = st := by
  rcases callVisitorMethods_cases ctx mn nn ast st _ st' h with
    ⟨e', hr, hke, hst⟩ | ⟨vs, st1, hr, hg, hst⟩
  · have he2 : e = e' := Except.error.inj hr
    exact ⟨he2 ▸ hke, hst⟩
  · exact absurd hr (by simp)

/-- With no AST node there is nothing to do: the state is returned
untouched. -/
theorem callVisitorMethods_none (ctx : WalkCtx) (mn nn : String) (st : WalkState) :
    callVisitorMethods ctx mn nn none st = (.ok (), st) := by
  simp [callVisitorMethods, getVisitors]

/-- With an AST node that has no directives list there is nothing to do. -/
theorem callVisitorMethods_nodirs (ctx : WalkCtx) (mn nn : String) (st : WalkState) :
    callVisitorMethods ctx mn nn (some ⟨none⟩) st = (.ok (), st) := by
  simp [callVisitorMethods, getVisitors]


/-! ## Helper lemmas: traversal trace and error propagation -/

/-- The event is a dispatch whose method name is among `ms`. -/
def DispatchOnly (ms : List String) (ev : WalkEvent) : Prop :=
  ∃ m d n, ev = WalkEvent.dispatch m d n ∧ m ∈ ms

theorem DispatchOnly.mono {ms ms' : List String} {ev : WalkEvent}
    (h : DispatchOnly ms ev) (hsub : ∀ m ∈ ms, m ∈ ms') : DispatchOnly ms' ev := by
  obtain ⟨m, d, n, hev, hm⟩ := h
  exact ⟨m, d, n, hev, hsub m hm⟩

/-- The dispatch methods that can fire while visiting a named type. -/
def typeLevelMethods : List String :=
  ["visitObject", "visitFieldDefinition", "visitArgumentDefinition", "visitInterface",
   "visitInputObject", "visitInputFieldDefinition", "visitScalar", "visitUnion",
   "visitEnum", "visitEnumValue"]

theorem visitArguments_props (ctx : WalkCtx) :
    ∀ (args : List ArgumentDef) (st : WalkState) (r : Except String Unit) (st' : WalkState),
      visitArguments ctx args st = (r, st') →
      (∃ ext, st'.trace = st.trace ++ ext ∧
         ∀ ev ∈ ext, DispatchOnly ["visitArgumentDefinition"] ev)
      ∧ (∀ e, r = .error e → IsKindError e) := by
  intro args
  induction args with
  | nil =>
    intro st r st' h
    simp only [visitArguments] at h
    injection h with h1 h2
    refine ⟨⟨[], by rw [← h2, List.append_nil], by simp⟩, ?_⟩
    intro e he
    rw [← h1] at he
    exact absurd he (by simp)
  | cons arg rest ih =>
    intro st r st' h
    simp only [visitArguments] at h
    cases hc : callVisitorMethods ctx "visitArgumentDefinition" arg.name arg.astNode st with
    | mk rc st1 =>
      rw [hc] at h
      obtain ⟨ext1, htr1, hev1⟩ :=
        callVisitorMethods_trace ctx "visitArgumentDefinition" arg.name arg.astNode st rc st1 hc
      cases rc with
      | error e =>
        injection h with h1 h2
        obtain ⟨hke, hst⟩ :=
          callVisitorMethods_error ctx "visitArgumentDefinition" arg.name arg.astNode st e st1 hc
        refine ⟨⟨ext1, by rw [← h2, htr1], ?_⟩, ?_⟩
        · intro ev hev
          obtain ⟨d, hd⟩ := hev1 ev hev
          exact ⟨"visitArgumentDefinition", d, arg.name, hd, by simp⟩
        · intro e' he'
          rw [← h1] at he'
          have : e = e' := Except.error.inj he'
          exact this ▸ hke
      | ok u =>
        cases u
        obtain ⟨⟨ext2, htr2, hev2⟩, herr⟩ := ih st1 r st' h
        refine ⟨⟨ext1 ++ ext2, ?_, ?_⟩, herr⟩
        · rw [htr2, htr1, List.append_assoc]
        · intro ev hev
          rcases List.mem_append.mp hev with hev | hev
          · obtain ⟨d, hd⟩ := hev1 ev hev
            exact ⟨"visitArgumentDefinition", d, arg.name, hd, by simp⟩
          · exact hev2 ev hev



theorem visitInputFields_props (ctx : WalkCtx) :
    ∀ (fields : List InputFieldDef) (st : WalkState) (r : Except String Unit) (st' : WalkState),
      visitInputFields ctx fields st = (r, st') →
      (∃ ext, st'.trace = st.trace ++ ext ∧
         ∀ ev ∈ ext, DispatchOnly ["visitInputFieldDefinition"] ev)
      ∧ (∀ e, r = .error e → IsKindError e) := by
  intro fields
  induction fields with
  | nil =>
    intro st r st' h
    simp only [visitInputFields] at h
    injection h with h1 h2
    refine ⟨⟨[], by rw [← h2, List.append_nil], by simp⟩, ?_⟩
    intro e he
    rw [← h1] at he
    exact absurd he (by simp)
  | cons f rest ih =>
    intro st r st' h
    simp only [visitInputFields] at h
    cases hc : callVisitorMethods ctx "visitInputFieldDefinition" f.name f.astNode st with
    | mk rc st1 =>
      rw [hc] at h
      obtain ⟨ext1, htr1, hev1⟩ :=
        callVisitorMethods_trace ctx "visitInputFieldDefinition" f.name f.astNode st rc st1 hc
      cases rc with
      | error e =>
        injection h with h1 h2
        obtain ⟨hke, hst⟩ :=
          callVisitorMethods_error ctx "visitInputFieldDefinition" f.name f.astNode st e st1 hc
        refine ⟨⟨ext1, by rw [← h2, htr1], ?_⟩, ?_⟩
        · intro ev hev
          obtain ⟨d, hd⟩ := hev1 ev hev
          exact ⟨"visitInputFieldDefinition", d, f.name, hd, by simp⟩
        · intro e' he'
          rw [← h1] at he'
          have : e = e' := Except.error.inj he'
          exact this ▸ hke
      | ok u =>
        cases u
        obtain ⟨⟨ext2, htr2, hev2⟩, herr⟩ := ih st1 r st' h
        refine ⟨⟨ext1 ++ ext2, ?_, ?_⟩, herr⟩
        · rw [htr2, htr1, List.append_assoc]
        · intro ev hev
          rcases List.mem_append.mp hev with hev | hev
          · obtain ⟨d, hd⟩ := hev1 ev hev
            exact ⟨"visitInputFieldDefinition", d, f.name, hd, by simp⟩
          · exact hev2 ev hev

theorem visitEnumValues_props (ctx : WalkCtx) :
    ∀ (values : List EnumValueDef) (st : WalkState) (r : Except String Unit) (st' : WalkState),
      visitEnumValues ctx values st = (r, st') →
      (∃ ext, st'.trace = st.trace ++ ext ∧
         ∀ ev ∈ ext, DispatchOnly ["visitEnumValue"] ev)
      ∧ (∀ e, r = .error e → IsKindError e) := by
  intro values
  induction values with
  | nil =>
    intro st r st' h
    simp only [visitEnumValues] at h
    injection h with h1 h2
    refine ⟨⟨[], by rw [← h2, List.append_nil], by simp⟩, ?_⟩
    intro e he
    rw [← h1] at he
    exact absurd he (by simp)
  | cons v rest ih =>
    intro st r st' h
    simp only [visitEnumValues] at h
    cases hc : callVisitorMethods ctx "visitEnumValue" v.name v.astNode st with
    | mk rc st1 =>
      rw [hc] at h
      obtain ⟨ext1, htr1, hev1⟩ :=
        callVisitorMethods_trace ctx "visitEnumValue" v.name v.astNode st rc st1 hc
      cases rc with
      | error e =>
        injection h with h1 h2
        obtain ⟨hke, hst⟩ :=
          callVisitorMethods_error ctx "visitEnumValue" v.name v.astNode st e st1 hc
        refine ⟨⟨ext1, by rw [← h2, htr1], ?_⟩, ?_⟩
        · intro ev hev
          obtain ⟨d, hd⟩ := hev1 ev hev
          exact ⟨"visitEnumValue", d, v.name, hd, by simp⟩
        · intro e' he'
          rw [← h1] at he'
          have : e = e' := Except.error.inj he'
          exact this ▸ hke
      | ok u =>
        cases u
        obtain ⟨⟨ext2, htr2, hev2⟩, herr⟩ := ih st1 r st' h
        refine ⟨⟨ext1 ++ ext2, ?_, ?_⟩, herr⟩
        · rw [htr2, htr1, List.append_assoc]
        · intro ev hev
          rcases List.mem_append.mp hev with hev | hev
          · obtain ⟨d, hd⟩ := hev1 ev hev
            exact ⟨"visitEnumValue", d, v.name, hd, by simp⟩
          · exact hev2 ev hev

theorem visitFields_props (ctx : WalkCtx) :
    ∀ (fields : List FieldDef) (st : WalkState) (r : Except String Unit) (st' : WalkState),
      visitFields ctx fields st = (r, st') →
      (∃ ext, st'.trace = st.trace ++ ext ∧
         ∀ ev ∈ ext, DispatchOnly ["visitFieldDefinition", "visitArgumentDefinition"] ev)
      ∧ (∀ e, r = .error e → IsKindError e) := by
  intro fields
  induction fields with
  | nil =>
    intro st r st' h
    simp only [visitFields] at h
    injection h with h1 h2
    refine ⟨⟨[], by rw [← h2, List.append_nil], by simp⟩, ?_⟩
    intro e he
    rw [← h1] at he
    exact absurd he (by simp)
  | cons f rest ih =>
    intro st r st' h
    simp only [visitFields] at h
    cases hc : callVisitorMethods ctx "visitFieldDefinition" f.name f.astNode st with
    | mk rc st1 =>
      rw [hc] at h
      obtain ⟨ext1, htr1, hev1⟩ :=
        callVisitorMethods_trace ctx "visitFieldDefinition" f.name f.astNode st rc st1 hc
      have hev1' : ∀ ev ∈ ext1,
          DispatchOnly ["visitFieldDefinition", "visitArgumentDefinition"] ev := by
        intro ev hev
        obtain ⟨d, hd⟩ := hev1 ev hev
        exact ⟨"visitFieldDefinition", d, f.name, hd, by simp⟩
      cases rc with
      | error e =>
        injection h with h1 h2
        obtain ⟨hke, hst⟩ :=
          callVisitorMethods_error ctx "visitFieldDefinition" f.name f.astNode st e st1 hc
        refine ⟨⟨ext1, by rw [← h2, htr1], hev1'⟩, ?_⟩
        intro e' he'
        rw [← h1] at he'
        have : e = e' := Except.error.inj he'
        exact this ▸ hke
      | ok u =>
        cases u
        cases hfa : f.args with
        | none =>
          rw [hfa] at h
          obtain ⟨⟨ext2, htr2, hev2⟩, herr⟩ := ih st1 r st' h
          refine ⟨⟨ext1 ++ ext2, ?_, ?_⟩, herr⟩
          · rw [htr2, htr1, List.append_assoc]
          · intro ev hev
            rcases List.mem_append.mp hev with hev | hev
            · exact hev1' ev hev
            · exact hev2 ev hev
        | some argList =>
          rw [hfa] at h
          dsimp only at h
          cases hv : visitArguments ctx argList st1 with
          | mk rv st2 =>
            rw [hv] at h
            obtain ⟨⟨ext2, htr2, hev2⟩, herr2⟩ := visitArguments_props ctx argList st1 rv st2 hv
            have hev2' : ∀ ev ∈ ext2,
                DispatchOnly ["visitFieldDefinition", "visitArgumentDefinition"] ev := by
              intro ev hev
              refine (hev2 ev hev).mono ?_
              intro m hm
              simp only [List.mem_singleton] at hm
              simp [hm]
            cases rv with
            | error e =>
              injection h with h1 h2
              refine ⟨⟨ext1 ++ ext2, ?_, ?_⟩, ?_⟩
              · rw [← h2, htr2, htr1, List.append_assoc]
              · intro ev hev
                rcases List.mem_append.mp hev with hev | hev
                · exact hev1' ev hev
                · exact hev2' ev hev
              · intro e' he'
                rw [← h1] at he'
                have : e = e' := Except.error.inj he'
                exact this ▸ herr2 e rfl
            | ok u =>
              cases u
              obtain ⟨⟨ext3, htr3, hev3⟩, herr⟩ := ih st2 r st' h
              refine ⟨⟨ext1 ++ ext2 ++ ext3, ?_, ?_⟩, herr⟩
              · rw [htr3, htr2, htr1]
                simp [List.append_assoc]
              · intro ev hev
                rcases List.mem_append.mp hev with hev | hev
                · rcases List.mem_append.mp hev with hev | hev
                  · exact hev1' ev hev
                  · exact hev2' ev hev
                · exact hev3 ev hev



theorem visitNamedType_props (ctx : WalkCtx) (t : NamedType) (st : WalkState)
    (r : Except String Unit) (st' : WalkState) (h : visitNamedType ctx t st = (r, st')) :
    (∃ ext, st'.trace = st.trace ++ [WalkEvent.enter t.name] ++ ext ∧
       ∀ ev ∈ ext, DispatchOnly typeLevelMethods ev)
    ∧ (∀ e, r = .error e → IsKindError e) := by
  cases t with
  | objectType nm ast fields =>
    simp only [visitNamedType, NamedType.name] at h ⊢
    cases hc : callVisitorMethods ctx "visitObject" nm ast
        { st with trace := st.trace ++ [WalkEvent.enter nm] } with
    | mk rc st1 =>
      rw [hc] at h
      obtain ⟨ext1, htr1, hev1⟩ := callVisitorMethods_trace ctx "visitObject" nm ast _ rc st1 hc
      have hev1' : ∀ ev ∈ ext1, DispatchOnly typeLevelMethods ev := by
        intro ev hev
        obtain ⟨d, hd⟩ := hev1 ev hev
        exact ⟨"visitObject", d, nm, hd, by simp [typeLevelMethods]⟩
      cases rc with
      | error e =>
        injection h with h1 h2
        obtain ⟨hke, hst⟩ := callVisitorMethods_error ctx "visitObject" nm ast _ e st1 hc
        refine ⟨⟨ext1, ?_, hev1'⟩, ?_⟩
        · rw [← h2, htr1]
        · intro e' he'
          rw [← h1] at he'
          have : e = e' := Except.error.inj he'
          exact this ▸ hke
      | ok u =>
        cases u
        obtain ⟨⟨ext2, htr2, hev2⟩, herr⟩ := visitFields_props ctx fields st1 r st' h
        refine ⟨⟨ext1 ++ ext2, ?_, ?_⟩, herr⟩
        · rw [htr2, htr1]
          show _ = st.trace ++ [WalkEvent.enter nm] ++ (ext1 ++ ext2)
          simp [List.append_assoc]
        · intro ev hev
          rcases List.mem_append.mp hev with hev | hev
          · exact hev1' ev hev
          · refine (hev2 ev hev).mono ?_
            intro m hm
            fin_cases hm <;> simp [typeLevelMethods]
  | interfaceType nm ast fields =>
    simp only [visitNamedType, NamedType.name] at h ⊢
    cases hc : callVisitorMethods ctx "visitInterface" nm ast
        { st with trace := st.trace ++ [WalkEvent.enter nm] } with
    | mk rc st1 =>
      rw [hc] at h
      obtain ⟨ext1, htr1, hev1⟩ := callVisitorMethods_trace ctx "visitInterface" nm ast _ rc st1 hc
      have hev1' : ∀ ev ∈ ext1, DispatchOnly typeLevelMethods ev := by
        intro ev hev
        obtain ⟨d, hd⟩ := hev1 ev hev
        exact ⟨"visitInterface", d, nm, hd, by simp [typeLevelMethods]⟩
      cases rc with
      | error e =>
        injection h with h1 h2
        obtain ⟨hke, hst⟩ := callVisitorMethods_error ctx "visitInterface" nm ast _ e st1 hc
        refine ⟨⟨ext1, ?_, hev1'⟩, ?_⟩
        · rw [← h2, htr1]
        · intro e' he'
          rw [← h1] at he'
          have : e = e' := Except.error.inj he'
          exact this ▸ hke
      | ok u =>
        cases u
        obtain ⟨⟨ext2, htr2, hev2⟩, herr⟩ := visitFields_props ctx fields st1 r st' h
        refine ⟨⟨ext1 ++ ext2, ?_, ?_⟩, herr⟩
        · rw [htr2, htr1]
          show _ = st.trace ++ [WalkEvent.enter nm] ++ (ext1 ++ ext2)
          simp [List.append_assoc]
        · intro ev hev
          rcases List.mem_append.mp hev with hev | hev
          · exact hev1' ev hev
          · refine (hev2 ev hev).mono ?_
            intro m hm
            fin_cases hm <;> simp [typeLevelMethods]
  | inputObjectType nm ast fields =>
    simp only [visitNamedType, NamedType.name] at h ⊢
    cases hc : callVisitorMethods ctx "visitInputObject" nm ast
        { st with trace := st.trace ++ [WalkEvent.enter nm] } with
    | mk rc st1 =>
      rw [hc] at h
      obtain ⟨ext1, htr1, hev1⟩ :=
        callVisitorMethods_trace ctx "visitInputObject" nm ast _ rc st1 hc
      have hev1' : ∀ ev ∈ ext1, DispatchOnly typeLevelMethods ev := by
        intro ev hev
        obtain ⟨d, hd⟩ := hev1 ev hev
        exact ⟨"visitInputObject", d, nm, hd, by simp [typeLevelMethods]⟩
      cases rc with
      | error e =>
        injection h with h1 h2
        obtain ⟨hke, hst⟩ := callVisitorMethods_error ctx "visitInputObject" nm ast _ e st1 hc
        refine ⟨⟨ext1, ?_, hev1'⟩, ?_⟩
        · rw [← h2, htr1]
        · intro e' he'
          rw [← h1] at he'
          have : e = e' := Except.error.inj he'
          exact this ▸ hke
      | ok u =>
        cases u
        obtain ⟨⟨ext2, htr2, hev2⟩, herr⟩ := visitInputFields_props ctx fields st1 r st' h
        refine ⟨⟨ext1 ++ ext2, ?_, ?_⟩, herr⟩
        · rw [htr2, htr1]
          show _ = st.trace ++ [WalkEvent.enter nm] ++ (ext1 ++ ext2)
          simp [List.append_assoc]
        · intro ev hev
          rcases List.mem_append.mp hev with hev | hev
          · exact hev1' ev hev
          · refine (hev2 ev hev).mono ?_
            intro m hm
            fin_cases hm <;> simp [typeLevelMethods]
  | scalarType nm ast =>
    simp only [visitNamedType, NamedType.name] at h ⊢
    obtain ⟨ext1, htr1, hev1⟩ := callVisitorMethods_trace ctx "visitScalar" nm ast _ r st' h
    refine ⟨⟨ext1, ?_, ?_⟩, ?_⟩
    · rw [htr1]
    · intro ev hev
      obtain ⟨d, hd⟩ := hev1 ev hev
      exact ⟨"visitScalar", d, nm, hd, by simp [typeLevelMethods]⟩
    · intro e he
      subst he
      exact (callVisitorMethods_error ctx "visitScalar" nm ast _ e st' h).1
  | unionType nm ast members =>
    simp only [visitNamedType, NamedType.name] at h ⊢
    obtain ⟨ext1, htr1, hev1⟩ := callVisitorMethods_trace ctx "visitUnion" nm ast _ r st' h
    refine ⟨⟨ext1, ?_, ?_⟩, ?_⟩
    · rw [htr1]
    · intro ev hev
      obtain ⟨d, hd⟩ := hev1 ev hev
      exact ⟨"visitUnion", d, nm, hd, by simp [typeLevelMethods]⟩
    · intro e he
      subst he
      exact (callVisitorMethods_error ctx "visitUnion" nm ast _ e st' h).1
  | enumType nm ast values =>
    simp only [visitNamedType, NamedType.name] at h ⊢
    cases hc : callVisitorMethods ctx "visitEnum" nm ast
        { st with trace := st.trace ++ [WalkEvent.enter nm] } with
    | mk rc st1 =>
      rw [hc] at h
      obtain ⟨ext1, htr1, hev1⟩ := callVisitorMethods_trace ctx "visitEnum" nm ast _ rc st1 hc
      have hev1' : ∀ ev ∈ ext1, DispatchOnly typeLevelMethods ev := by
        intro ev hev
        obtain ⟨d, hd⟩ := hev1 ev hev
        exact ⟨"visitEnum", d, nm, hd, by simp [typeLevelMethods]⟩
      cases rc with
      | error e =>
        injection h with h1 h2
        obtain ⟨hke, hst⟩ := callVisitorMethods_error ctx "visitEnum" nm ast _ e st1 hc
        refine ⟨⟨ext1, ?_, hev1'⟩, ?_⟩
        · rw [← h2, htr1]
        · intro e' he'
          rw [← h1] at he'
          have : e = e' := Except.error.inj he'
          exact this ▸ hke
      | ok u =>
        cases u
        obtain ⟨⟨ext2, htr2, hev2⟩, herr⟩ := visitEnumValues_props ctx values st1 r st' h
        refine ⟨⟨ext1 ++ ext2, ?_, ?_⟩, herr⟩
        · rw [htr2, htr1]
          show _ = st.trace ++ [WalkEvent.enter nm] ++ (ext1 ++ ext2)
          simp [List.append_assoc]
        · intro ev hev
          rcases List.mem_append.mp hev with hev | hev
          · exact hev1' ev hev
          · refine (hev2 ev hev).mono ?_
            intro m hm
            fin_cases hm <;> simp [typeLevelMethods]

theorem visitTypeMap_props (ctx : WalkCtx) :
    ∀ (entries : List (String × NamedType)) (st : WalkState) (r : Except String Unit)
      (st' : WalkState), visitTypeMap ctx entries st = (r, st') →
      (∃ ext, st'.trace = st.trace ++ ext ∧
         ∀ ev ∈ ext, (∃ nm, ev = WalkEvent.enter nm) ∨ DispatchOnly typeLevelMethods ev)
      ∧ (∀ e, r = .error e → IsKindError e) := by
  intro entries
  induction entries with
  | nil =>
    intro st r st' h
    simp only [visitTypeMap] at h
    injection h with h1 h2
    refine ⟨⟨[], by rw [← h2, List.append_nil], by simp⟩, ?_⟩
    intro e he
    rw [← h1] at he
    exact absurd he (by simp)
  | cons p rest ih =>
    intro st r st' h
    obtain ⟨typeName, t⟩ := p
    simp only [visitTypeMap] at h
    by_cases hres : isReservedName typeName
    · rw [if_pos hres] at h
      exact ih st r st' h
    · rw [if_neg hres] at h
      cases hv : visitNamedType ctx t st with
      | mk rv st1 =>
        rw [hv] at h
        obtain ⟨⟨ext1, htr1, hev1⟩, herr1⟩ := visitNamedType_props ctx t st rv st1 hv
        have hall1 : ∀ ev ∈ [WalkEvent.enter t.name] ++ ext1,
            (∃ nm, ev = WalkEvent.enter nm) ∨ DispatchOnly typeLevelMethods ev := by
          intro ev hev
          rcases List.mem_append.mp hev with hev | hev
          · simp only [List.mem_singleton] at hev
            exact Or.inl ⟨t.name, hev⟩
          · exact Or.inr (hev1 ev hev)
        cases rv with
        | error e =>
          injection h with h1 h2
          refine ⟨⟨[WalkEvent.enter t.name] ++ ext1, ?_, hall1⟩, ?_⟩
          · rw [← h2, htr1]
            simp [List.append_assoc]
          · intro e' he'
            rw [← h1] at he'
            have : e = e' := Except.error.inj he'
            exact this ▸ herr1 e rfl
        | ok u =>
          cases u
          obtain ⟨⟨ext2, htr2, hev2⟩, herr⟩ := ih st1 r st' h
          refine ⟨⟨([WalkEvent.enter t.name] ++ ext1) ++ ext2, ?_, ?_⟩, herr⟩
          · rw [htr2, htr1]
            simp [List.append_assoc]
          · intro ev hev
            rcases List.mem_append.mp hev with hev | hev
            · exact hall1 ev hev
            · exact hev2 ev hev


/-! ## Helper lemmas: enter-event counting, short-circuiting, error shape -/

theorem count_enter_zero_of_dispatch (ext : List WalkEvent) (nm : String)
    (h : ∀ ev ∈ ext, DispatchOnly typeLevelMethods ev) :
    ext.count (WalkEvent.enter nm) = 0 := by
  rw [List.count_eq_zero]
  intro hmem
  obtain ⟨m, d, n, hevq, _⟩ := h _ hmem
  exact WalkEvent.noConfusion hevq

theorem visitNamedType_enter_count (ctx : WalkCtx) (t : NamedType) (st : WalkState)
    (r : Except String Unit) (st' : WalkState) (h : visitNamedType ctx t st = (r, st'))
    (nm : String) :
    st'.trace.count (WalkEvent.enter nm) =
      st.trace.count (WalkEvent.enter nm) + (if t.name = nm then 1 else 0) := by
  obtain ⟨⟨ext, htr, hev⟩, _⟩ := visitNamedType_props ctx t st r st' h
  rw [htr, List.count_append, List.count_append,
    count_enter_zero_of_dispatch ext nm hev]
  by_cases hnm : t.name = nm
  · simp [hnm]
  · have : WalkEvent.enter nm ∉ [WalkEvent.enter t.name] := by
      simp only [List.mem_singleton]
      intro hc
      exact hnm (WalkEvent.enter.inj hc).symm
    rw [List.count_eq_zero.mpr this]
    simp [hnm]

theorem visitTypeMap_enter_count (ctx : WalkCtx) :
    ∀ (entries : List (String × NamedType)) (st st' : WalkState),
      visitTypeMap ctx entries st = (.ok (), st') →
      ∀ nm, st'.trace.count (WalkEvent.enter nm) =
        st.trace.count (WalkEvent.enter nm) +
          ((entries.filter (fun p => !(isReservedName p.1))).map
            (fun p => NamedType.name p.2)).count nm := by
  intro entries
  induction entries with
  | nil =>
    intro st st' h nm
    simp only [visitTypeMap] at h
    injection h with h1 h2
    rw [← h2]
    simp
  | cons p rest ih =>
    intro st st' h nm
    obtain ⟨typeName, t⟩ := p
    simp only [visitTypeMap] at h
    by_cases hres : isReservedName typeName
    · rw [if_pos hres] at h
      rw [ih st st' h nm, List.filter_cons]
      have : (!(isReservedName typeName)) = false := by rw [hres]; rfl
      rw [if_neg (by rw [this]; exact Bool.false_ne_true)]
    · rw [if_neg hres] at h
      cases hv : visitNamedType ctx t st with
      | mk rv st1 =>
        rw [hv] at h
        cases rv with
        | error e =>
          injection h with h1 h2
          exact absurd h1 (by simp)
        | ok u =>
          cases u
          rw [ih st1 st' h nm, visitNamedType_enter_count ctx t st _ st1 hv nm]
          rw [List.filter_cons]
          have hb : (!(isReservedName typeName)) = true := by
            rw [Bool.eq_false_iff.mpr hres]; rfl
          rw [if_pos hb, List.map_cons, List.count_cons]
          by_cases hnm : t.name = nm
          · simp [hnm]
            omega
          · have : ¬ (nm = NamedType.name t) := fun hc => hnm hc.symm
            simp [hnm, this]

/-- The name entered by a trace event: `some` for an enter event, `none` for
a dispatch, so `filterMap enterName` extracts the sequence of entered type
names in trace order. -/
def enterName : WalkEvent → Option String
  | .enter nm => some nm
  | .dispatch _ _ _ => none

theorem filterMap_enterName_nil (ext : List WalkEvent)
    (h : ∀ ev ∈ ext, ∃ m d n, ev = WalkEvent.dispatch m d n) :
    ext.filterMap enterName = [] := by
  induction ext with
  | nil => rfl
  | cons ev rest ih =>
    obtain ⟨m, d, n, hev⟩ := h ev (List.mem_cons_self ev rest)
    subst hev
    rw [List.filterMap_cons]
    exact ih fun e he => h e (List.mem_cons_of_mem _ he)

theorem visitNamedType_enter_seq (ctx : WalkCtx) (t : NamedType) (st : WalkState)
    (r : Except String Unit) (st' : WalkState)
    (h : visitNamedType ctx t st = (r, st')) :
    st'.trace.filterMap enterName = st.trace.filterMap enterName ++ [t.name] := by
  obtain ⟨⟨ext, htr, hev⟩, _⟩ := visitNamedType_props ctx t st r st' h
  rw [htr, List.filterMap_append, List.filterMap_append,
    filterMap_enterName_nil ext (fun ev he => by
      obtain ⟨m, d, n, hq, _⟩ := hev ev he
      exact ⟨m, d, n, hq⟩)]
  simp [enterName]

/-- A successful pass over the type table enters exactly the non-reserved
entries' types, in table (declaration) order. -/
theorem visitTypeMap_enter_seq (ctx : WalkCtx) :
    ∀ (entries : List (String × NamedType)) (st st' : WalkState),
      visitTypeMap ctx entries st = (.ok (), st') →
      st'.trace.filterMap enterName = st.trace.filterMap enterName ++
        ((entries.filter (fun p => !(isReservedName p.1))).map
          (fun p => NamedType.name p.2)) := by
  intro entries
  induction entries with
  | nil =>
    intro st st' h
    simp only [visitTypeMap] at h
    injection h with h1 h2
    rw [← h2]
    simp
  | cons p rest ih =>
    intro st st' h
    obtain ⟨typeName, t⟩ := p
    simp only [visitTypeMap] at h
    by_cases hres : isReservedName typeName
    · rw [if_pos hres] at h
      rw [ih st st' h, List.filter_cons]
      have hb : (!(isReservedName typeName)) = false := by rw [hres]; rfl
      rw [if_neg (by rw [hb]; exact Bool.false_ne_true)]
    · rw [if_neg hres] at h
      cases hv : visitNamedType ctx t st with
      | mk rv st1 =>
        rw [hv] at h
        cases rv with
        | error e =>
          injection h with h1 h2
          exact absurd h1 (by simp)
        | ok u =>
          cases u
          rw [ih st1 st' h, visitNamedType_enter_seq ctx t st _ st1 hv,
            List.filter_cons]
          have hb : (!(isReservedName typeName)) = true := by
            rw [Bool.eq_false_iff.mpr hres]; rfl
          rw [if_pos hb, List.map_cons]
          simp [List.append_assoc]

/-- Visiting a prefix of the type map that throws is unaffected by anything
appended after it: nothing past the offending type runs. -/
theorem visitTypeMap_error_append (ctx : WalkCtx) :
    ∀ (ts1 ts2 : List (String × NamedType)) (st : WalkState) (e : String) (st' : WalkState),
      visitTypeMap ctx ts1 st = (.error e, st') →
      visitTypeMap ctx (ts1 ++ ts2) st = (.error e, st') := by
  intro ts1
  induction ts1 with
  | nil =>
    intro ts2 st e st' h
    simp only [visitTypeMap] at h
    injection h with h1 h2
    exact absurd h1 (by simp)
  | cons p rest ih =>
    intro ts2 st e st' h
    obtain ⟨typeName, t⟩ := p
    rw [List.cons_append]
    simp only [visitTypeMap] at h ⊢
    by_cases hres : isReservedName typeName
    · rw [if_pos hres] at h ⊢
      exact ih ts2 st e st' h
    · rw [if_neg hres] at h ⊢
      cases hv : visitNamedType ctx t st with
      | mk rv st1 =>
        rw [hv] at h
        cases rv with
        | error e' => exact h
        | ok u =>
          cases u
          exact ih ts2 st1 e st' h

theorem visitTypeMap_error_shape (ctx : WalkCtx) (entries : List (String × NamedType))
    (st : WalkState) (e : String) (st' : WalkState)
    (h : visitTypeMap ctx entries st = (.error e, st')) : IsKindError e :=
  (visitTypeMap_props ctx entries st _ st' h).2 e rfl

/-- Every error a whole walk can surface is an unsupported-literal-kind
error. -/
theorem visitSchema_error_shape (schema : Schema)
    (tbl : List (String × VisitorClass)) (e : String) (st' : WalkState)
    (h : visitSchema schema tbl = (.error e, st')) : IsKindError e := by
  simp only [visitSchema] at h
  cases hc : callVisitorMethods
      ⟨tbl, jsObjOf (schema.directives.map fun d => (d.name, d))⟩ "visitSchema"
      schemaNodeName schema.astNode
      ⟨jsObjOf (tbl.map fun p => (p.1, [])), []⟩ with
  | mk rc st1 =>
    rw [hc] at h
    cases rc with
    | error e' =>
      injection h with h1 h2
      have he : e' = e := Except.error.inj h1
      exact he ▸ (callVisitorMethods_error _ _ _ _ _ e' st1 hc).1
    | ok u =>
      cases u
      dsimp only at h
      cases hv : visitTypeMap ⟨tbl, jsObjOf (schema.directives.map fun d => (d.name, d))⟩
          schema.typeMap st1 with
      | mk rv st2 =>
        rw [hv] at h
        cases rv with
        | error e' =>
          injection h with h1 h2
          have he : e' = e := Except.error.inj h1
          exact he ▸ visitTypeMap_error_shape _ _ _ e' st2 hv
        | ok u' =>
          cases u'
          injection h with h1 h2
          exact absurd h1 (by simp)


/-! ## Helper lemmas: programmatically-built schemas (no AST nodes) -/

/-- The field and all of its arguments lack AST nodes. -/
def FieldDef.astFree (f : FieldDef) : Bool :=
  f.astNode.isNone &&
    (match f.args with
     | none => true
     | some args => args.all fun a => a.astNode.isNone)

/-- The named type and everything it owns lack AST nodes. -/
def NamedType.astFree : NamedType → Bool
  | .objectType _ ast fields => ast.isNone && fields.all FieldDef.astFree
  | .interfaceType _ ast fields => ast.isNone && fields.all FieldDef.astFree
  | .inputObjectType _ ast fields => ast.isNone && fields.all fun f => f.astNode.isNone
  | .scalarType _ ast => ast.isNone
  | .unionType _ ast _ => ast.isNone
  | .enumType _ ast values => ast.isNone && values.all fun v => v.astNode.isNone

/-- The whole schema was built without SDL AST nodes. -/
def Schema.astFree (s : Schema) : Bool :=
  s.astNode.isNone && s.typeMap.all fun p => NamedType.astFree p.2

theorem visitArguments_astFree (ctx : WalkCtx) :
    ∀ (args : List ArgumentDef) (st : WalkState),
      (args.all fun a => a.astNode.isNone) = true →
      visitArguments ctx args st = (.ok (), st) := by
  intro args
  induction args with
  | nil => intro st _; rfl
  | cons arg rest ih =>
    intro st hall
    simp only [List.all_cons, Bool.and_eq_true] at hall
    have ha : arg.astNode = none := Option.isNone_iff_eq_none.mp hall.1
    simp only [visitArguments, ha, callVisitorMethods_none]
    exact ih st hall.2

theorem visitFields_astFree (ctx : WalkCtx) :
    ∀ (fields : List FieldDef) (st : WalkState),
      (fields.all FieldDef.astFree) = true →
      visitFields ctx fields st = (.ok (), st) := by
  intro fields
  induction fields with
  | nil => intro st _; rfl
  | cons f rest ih =>
    intro st hall
    simp only [List.all_cons, Bool.and_eq_true] at hall
    have hf := hall.1
    simp only [FieldDef.astFree, Bool.and_eq_true] at hf
    have ha : f.astNode = none := Option.isNone_iff_eq_none.mp hf.1
    simp only [visitFields, ha, callVisitorMethods_none]
    cases hfa : f.args with
    | none => exact ih st hall.2
    | some argList =>
      have hargs : (argList.all fun a => a.astNode.isNone) = true := by
        have h2 := hf.2
        rw [hfa] at h2
        exact h2
      dsimp only
      rw [visitArguments_astFree ctx argList st hargs]
      exact ih st hall.2

theorem visitInputFields_astFree (ctx : WalkCtx) :
    ∀ (fields : List InputFieldDef) (st : WalkState),
      (fields.all fun f => f.astNode.isNone) = true →
      visitInputFields ctx fields st = (.ok (), st) := by
  intro fields
  induction fields with
  | nil => intro st _; rfl
  | cons f rest ih =>
    intro st hall
    simp only [List.all_cons, Bool.and_eq_true] at hall
    have ha : f.astNode = none := Option.isNone_iff_eq_none.mp hall.1
    simp only [visitInputFields, ha, callVisitorMethods_none]
    exact ih st hall.2

theorem visitEnumValues_astFree (ctx : WalkCtx) :
    ∀ (values : List EnumValueDef) (st : WalkState),
      (values.all fun v => v.astNode.isNone) = true →
      visitEnumValues ctx values st = (.ok (), st) := by
  intro values
  induction values with
  | nil => intro st _; rfl
  | cons v rest ih =>
    intro st hall
    simp only [List.all_cons, Bool.and_eq_true] at hall
    have ha : v.astNode = none := Option.isNone_iff_eq_none.mp hall.1
    simp only [visitEnumValues, ha, callVisitorMethods_none]
    exact ih st hall.2

theorem visitNamedType_astFree (ctx : WalkCtx) (t : NamedType) (st : WalkState)
    (h : NamedType.astFree t = true) :
    visitNamedType ctx t st =
      (.ok (), { st with trace := st.trace ++ [WalkEvent.enter t.name] }) := by
  cases t with
  | objectType nm ast fields =>
    simp only [NamedType.astFree, Bool.and_eq_true] at h
    have ha : ast = none := Option.isNone_iff_eq_none.mp h.1
    simp only [visitNamedType, NamedType.name, ha, callVisitorMethods_none]
    exact visitFields_astFree ctx fields _ h.2
  | interfaceType nm ast fields =>
    simp only [NamedType.astFree, Bool.and_eq_true] at h
    have ha : ast = none := Option.isNone_iff_eq_none.mp h.1
    simp only [visitNamedType, NamedType.name, ha, callVisitorMethods_none]
    exact visitFields_astFree ctx fields _ h.2
  | inputObjectType nm ast fields =>
    simp only [NamedType.astFree, Bool.and_eq_true] at h
    have ha : ast = none := Option.isNone_iff_eq_none.mp h.1
    simp only [visitNamedType, NamedType.name, ha, callVisitorMethods_none]
    exact visitInputFields_astFree ctx fields _ h.2
  | scalarType nm ast =>
    simp only [NamedType.astFree] at h
    have ha : ast = none := Option.isNone_iff_eq_none.mp h
    simp only [visitNamedType, NamedType.name, ha, callVisitorMethods_none]
  | unionType nm ast members =>
    simp only [NamedType.astFree] at h
    have ha : ast = none := Option.isNone_iff_eq_none.mp h
    simp only [visitNamedType, NamedType.name, ha, callVisitorMethods_none]
  | enumType nm ast values =>
    simp only [NamedType.astFree, Bool.and_eq_true] at h
    have ha : ast = none := Option.isNone_iff_eq_none.mp h.1
    simp only [visitNamedType, NamedType.name, ha, callVisitorMethods_none]
    exact visitEnumValues_astFree ctx values _ h.2

theorem visitTypeMap_astFree (ctx : WalkCtx) :
    ∀ (entries : List (String × NamedType)) (st : WalkState),
      (entries.all fun p => NamedType.astFree p.2) = true →
      ∃ st', visitTypeMap ctx entries st = (.ok (), st') ∧
        st'.createdVisitors = st.createdVisitors := by
  intro entries
  induction entries with
  | nil => intro st _; exact ⟨st, rfl, rfl⟩
  | cons p rest ih =>
    intro st hall
    simp only [List.all_cons, Bool.and_eq_true] at hall
    obtain ⟨typeName, t⟩ := p
    simp only [visitTypeMap]
    by_cases hres : isReservedName typeName
    · rw [if_pos hres]
      exact ih st hall.2
    · rw [if_neg hres]
      rw [visitNamedType_astFree ctx t st hall.1]
      obtain ⟨st', h1, h2⟩ := ih { st with trace := st.trace ++ [WalkEvent.enter t.name] } hall.2
      exact ⟨st', h1, h2⟩

theorem visitSchema_astFree (schema : Schema) (tbl : List (String × VisitorClass))
    (h : Schema.astFree schema = true) :
    ∃ st', visitSchema schema tbl =
      (.ok (jsObjOf (tbl.map fun p => (p.1, []))), st') ∧
      st'.createdVisitors = jsObjOf (tbl.map fun p => (p.1, [])) := by
  simp only [Schema.astFree, Bool.and_eq_true] at h
  have ha : schema.astNode = none := Option.isNone_iff_eq_none.mp h.1
  simp only [visitSchema, ha, callVisitorMethods_none]
  obtain ⟨st', h1, h2⟩ := visitTypeMap_astFree
    ⟨tbl, jsObjOf (schema.directives.map fun d => (d.name, d))⟩ schema.typeMap
    ⟨jsObjOf (tbl.map fun p => (p.1, [])), []⟩ h.2
  rw [h1]
  refine ⟨st', ?_, h2⟩
  dsimp only
  rw [h2]

/-! ## Helper lemmas: JS object construction (`jsObjOf`) -/

theorem mem_jsAssign {α : Type} (obj : List (String × α)) (k : String) (v : α)
    (p : String × α) (h : p ∈ jsAssign obj k v) : p ∈ obj ∨ p = (k, v) := by
  unfold jsAssign at h
  by_cases hc : obj.any (fun q => q.1 == k)
  · rw [if_pos hc] at h
    rcases List.mem_map.mp h with ⟨q, hq, hval⟩
    by_cases hqk : q.1 == k
    · rw [if_pos hqk] at hval
      exact Or.inr hval.symm
    · rw [if_neg hqk] at hval
      exact Or.inl (hval ▸ hq)
  · rw [if_neg hc] at h
    rcases List.mem_append.mp h with h1 | h1
    · exact Or.inl h1
    · simp only [List.mem_singleton] at h1
      exact Or.inr h1

theorem jsObjOf_sub {α : Type} (l : List (String × α)) :
    ∀ p ∈ jsObjOf l, p ∈ l := by
  suffices hgen : ∀ (l2 acc : List (String × α)) (P : String × α → Prop),
      (∀ p ∈ acc, P p) → (∀ p ∈ l2, P p) →
      ∀ p ∈ l2.foldl (fun m q => jsAssign m q.1 q.2) acc, P p by
    intro p hp
    exact hgen l [] (· ∈ l) (by simp) (fun _ hx => hx) p hp
  intro l2
  induction l2 with
  | nil => intro acc P hacc _ p hp; exact hacc p hp
  | cons q rest ih =>
    intro acc P hacc hl2 p hp
    refine ih (jsAssign acc q.1 q.2) P ?_ (fun x hx => hl2 x (by simp [hx])) p hp
    intro x hx
    rcases mem_jsAssign acc q.1 q.2 x hx with hx1 | hx1
    · exact hacc x hx1
    · subst hx1
      exact hl2 q (by simp)

theorem mem_keys_jsAssign {α : Type} (obj : List (String × α)) (k : String) (v : α)
    (k' : String) :
    k' ∈ (jsAssign obj k v).map Prod.fst ↔ k' ∈ obj.map Prod.fst ∨ k' = k := by
  rw [jsAssign_map_fst]
  by_cases hc : obj.any (fun q => q.1 == k)
  · rw [if_pos hc]
    constructor
    · exact Or.inl
    · intro h
      rcases h with h | h
      · exact h
      · subst h
        rcases List.any_eq_true.mp hc with ⟨q, hq, hqk⟩
        have hqe : q.1 = k' := by simpa using hqk
        exact hqe ▸ List.mem_map.mpr ⟨q, hq, rfl⟩
  · rw [if_neg hc]
    rw [List.mem_append]
    simp

theorem mem_keys_jsObjOf {α : Type} (l : List (String × α)) (k : String) :
    k ∈ (jsObjOf l).map Prod.fst ↔ k ∈ l.map Prod.fst := by
  suffices hgen : ∀ (l2 acc : List (String × α)),
      (k ∈ ((l2.foldl (fun m q => jsAssign m q.1 q.2) acc).map Prod.fst) ↔
        k ∈ acc.map Prod.fst ∨ k ∈ l2.map Prod.fst) by
    have := hgen l []
    simpa [jsObjOf] using this
  intro l2
  induction l2 with
  | nil => intro acc; simp
  | cons q rest ih =>
    intro acc
    show (k ∈ ((rest.foldl (fun m q => jsAssign m q.1 q.2) (jsAssign acc q.1 q.2)).map Prod.fst)
      ↔ _)
    rw [ih (jsAssign acc q.1 q.2), mem_keys_jsAssign]
    simp only [List.map_cons, List.mem_cons]
    tauto

theorem assocLookup_some_of_mem_keys {α : Type} :
    ∀ (m : List (String × α)) (k : String), k ∈ m.map Prod.fst →
      ∃ v, assocLookup m k = some v ∧ (k, v) ∈ m := by
  intro m
  induction m with
  | nil => intro k h; simp at h
  | cons p rest ih =>
    intro k h
    by_cases hp : p.1 == k
    · have hpe : p.1 = k := by simpa using hp
      refine ⟨p.2, by simp [assocLookup, hp], ?_⟩
      rw [← hpe]
      simp
    · have hk : k ∈ rest.map Prod.fst := by
        simp only [List.map_cons, List.mem_cons] at h
        rcases h with h | h
        · exact absurd (by simp [h]) hp
        · exact h
      obtain ⟨v, hv1, hv2⟩ := ih k hk
      exact ⟨v, by simp [assocLookup, hp, hv1], by simp [hv2]⟩

theorem jsObjOf_nil_values_lookup (tbl : List (String × VisitorClass)) (name : String)
    (h : name ∈ tbl.map Prod.fst) :
    assocLookup (jsObjOf (tbl.map fun p => (p.1, ([] : List VisitorInstance)))) name =
      some [] := by
  have hkeys : name ∈
      (jsObjOf (tbl.map fun p => (p.1, ([] : List VisitorInstance)))).map Prod.fst := by
    rw [mem_keys_jsObjOf]
    simpa [List.map_map, Function.comp] using h
  obtain ⟨v, hv1, hv2⟩ := assocLookup_some_of_mem_keys _ name hkeys
  have hvnil : v = [] := by
    have hmem := jsObjOf_sub _ _ hv2
    rcases List.mem_map.mp hmem with ⟨q, hq, heq⟩
    have := congrArg Prod.snd heq
    simpa using this.symm
  rw [hv1, hvnil]


/-! ## Helper lemmas: the capability registry -/

theorem methodToLocationMap_keys_nodup : (methodToLocationMap.map Prod.fst).Nodup := by
  decide

theorem filterMap_congr_mem {α β : Type} (l : List α) (f g : α → Option β)
    (h : ∀ a ∈ l, f a = g a) : l.filterMap f = l.filterMap g := by
  induction l with
  | nil => rfl
  | cons a rest ih =>
    rw [List.filterMap_cons, List.filterMap_cons, h a (by simp),
      ih fun a ha => h a (by simp [ha])]

theorem filterMap_keys_eq (l : List (String × String)) (q : String → Bool)
    (hnodup : (l.map Prod.fst).Nodup) :
    (l.map Prod.fst).filterMap (fun k => if q k then assocLookup l k else none) =
      (l.filter (fun pr => q pr.1)).map Prod.snd := by
  induction l with
  | nil => rfl
  | cons p rest ih =>
    simp only [List.map_cons, List.nodup_cons] at hnodup
    obtain ⟨hnotin, hrest⟩ := hnodup
    rw [List.map_cons, List.filterMap_cons, List.filter_cons]
    have hself : assocLookup (p :: rest) p.1 = some p.2 := by
      simp [assocLookup]
    have htail : (rest.map Prod.fst).filterMap
        (fun k => if q k then assocLookup (p :: rest) k else none) =
        (rest.map Prod.fst).filterMap (fun k => if q k then assocLookup rest k else none) := by
      refine filterMap_congr_mem _ _ _ ?_
      intro k hk
      have hkp : ¬ (p.1 == k) = true := by
        refine fun hc => hnotin ?_
        have : p.1 = k := by simpa using hc
        exact this ▸ hk
      by_cases hq : q k
      · rw [if_pos hq, if_pos hq]
        simp [assocLookup, hkp]
      · rw [if_neg hq, if_neg hq]
    by_cases hq : q p.1
    · rw [if_pos hq, if_pos hq, hself, htail, ih hrest, List.map_cons]
    · rw [if_neg hq, if_neg hq, htail, ih hrest]

theorem recognised_iff_mem (k : String) :
    (methodToLocationMap.any fun p => p.1 == k) = true ↔ k ∈ methodNames := by
  rw [List.any_eq_true]
  constructor
  · rintro ⟨p, hp, hpk⟩
    have : p.1 = k := by simpa using hpk
    exact this ▸ List.mem_map.mpr ⟨p, hp, rfl⟩
  · intro hk
    rcases List.mem_map.mp hk with ⟨p, hp, hpk⟩
    exact ⟨p, hp, by simp [hpk]⟩

theorem count_filter_eq {α : Type} [DecidableEq α] (l : List α) (p : α → Bool) (a : α) :
    (l.filter p).count a = if p a then l.count a else 0 := by
  induction l with
  | nil => simp
  | cons b rest ih =>
    rw [List.filter_cons]
    by_cases hab : b = a
    · subst hab
      by_cases hb : p b
      · simp [hb, List.count_cons, ih]
      · simp [hb, ih]
    · have hbeq : (b == a) = false := beq_eq_false_iff_ne.mpr hab
      by_cases hb : p b
      · simp [hb, List.count_cons, ih, hbeq]
      · simp [hb, List.count_cons, ih, hbeq]

theorem protoKeys_filter_perm (cls : VisitorClass)
    (hwf : ∀ m ∈ methodNames, cls.protoKeys.count m = 1) :
    (cls.protoKeys.filter
        (fun k => methodToLocationMap.any fun p => p.1 == k)).Perm methodNames := by
  rw [List.perm_iff_count]
  intro a
  rw [count_filter_eq]
  by_cases ha : (methodToLocationMap.any fun p => p.1 == a) = true
  · rw [if_pos ha]
    have hmem : a ∈ methodNames := (recognised_iff_mem a).mp ha
    rw [hwf a hmem]
    exact (List.count_eq_one_of_mem methodToLocationMap_keys_nodup hmem).symm
  · rw [if_neg ha]
    have hnot : a ∉ methodNames := fun hc => ha ((recognised_iff_mem a).mpr hc)
    exact (List.count_eq_zero.mpr hnot).symm

theorem computeLocations_perm (cls : VisitorClass)
    (hwf : ∀ m ∈ methodNames, cls.protoKeys.count m = 1) :
    (computeLocations cls).Perm
      ((methodToLocationMap.filter fun pr => cls.overridesMethod pr.1).map Prod.snd) := by
  unfold computeLocations
  have hstep1 : cls.protoKeys.filterMap
      (fun key => if shouldCall cls key then assocLookup methodToLocationMap key else none) =
      (cls.protoKeys.filter (fun k => methodToLocationMap.any fun p => p.1 == k)).filterMap
        (fun key => if shouldCall cls key then assocLookup methodToLocationMap key
                    else none) := by
    induction cls.protoKeys with
    | nil => rfl
    | cons k rest ih =>
      rw [List.filterMap_cons, List.filter_cons]
      by_cases hk : (methodToLocationMap.any fun p => p.1 == k) = true
      · rw [if_pos hk, List.filterMap_cons, ih]
      · have hsc : shouldCall cls k = false := by
          unfold shouldCall
          rw [Bool.eq_false_iff.mpr hk]
          rfl
        rw [if_neg hk, if_neg (by rw [hsc]; exact Bool.false_ne_true), ih]
  rw [hstep1]
  have hperm := protoKeys_filter_perm cls hwf
  refine (hperm.filterMap _).trans ?_
  have hstep2 : methodNames.filterMap
      (fun key => if shouldCall cls key then assocLookup methodToLocationMap key else none) =
      methodNames.filterMap
        (fun key => if cls.overridesMethod key then assocLookup methodToLocationMap key
                    else none) := by
    refine filterMap_congr_mem _ _ _ ?_
    intro k hk
    have hrec : (methodToLocationMap.any fun p => p.1 == k) = true :=
      (recognised_iff_mem k).mpr hk
    unfold shouldCall
    rw [hrec]
    cases cls.overridesMethod k <;> rfl
  rw [hstep2]
  rw [show methodNames = methodToLocationMap.map Prod.fst from rfl,
    filterMap_keys_eq methodToLocationMap (fun k => cls.overridesMethod k)
      methodToLocationMap_keys_nodup]


theorem getVisitors_somedirs (ctx : WalkCtx) (nn : String) (ds : List DirectiveNode)
    (mn : String) (st : WalkState) (r : Except String (List VisitorInstance))
    (st' : WalkState) (h : getVisitors ctx nn (some ⟨some ds⟩) mn st = (r, st')) :
    (∃ e, r = .error e ∧ st' = st ∧ buildVisitors ctx nn mn ds = .error e) ∨
    (∃ vs, r = .ok vs ∧ buildVisitors ctx nn mn ds = .ok vs ∧
       st' = { st with createdVisitors := registerVisitors st.createdVisitors vs }) := by
  cases hb : buildVisitors ctx nn mn ds with
  | error e =>
    simp only [getVisitors, hb] at h
    injection h with h1 h2
    exact Or.inl ⟨e, h1.symm, h2.symm, rfl⟩
  | ok vs =>
    simp only [getVisitors, hb] at h
    injection h with h1 h2
    exact Or.inr ⟨vs, h1.symm, rfl, h2.symm⟩



/-! ## The claims -/

/-- C1: for every node and every annotation occurrence whose name is a key in
the handler table, if the mapped class overrides the dispatch method for this
node kind then exactly one instance is constructed and dispatched for that
occurrence (the instance count equals the count of such occurrences and the
appended trace dispatches each built instance exactly once, in order); if the
class does not override the method, no instance bearing that occurrence's
name is ever constructed at this dispatch. -/
theorem c1_override_gates_instantiation (ctx : WalkCtx) (nn mn : String)
    (ds : List DirectiveNode) (st st' : WalkState)
    (hok : callVisitorMethods ctx mn nn (some ⟨some ds⟩) st = (.ok (), st')) :
    ∃ vs, buildVisitors ctx nn mn ds = .ok vs ∧
      vs.length = ds.countP (isActiveOccurrence ctx mn) ∧
      st'.trace = st.trace ++ vs.map (fun v => WalkEvent.dispatch mn v.name nn) ∧
      (∀ d ∈ ds, ∀ cls, assocLookup ctx.directiveVisitors d.name = some cls →
        shouldCall cls mn = false → ∀ v ∈ vs, v.name ≠ d.name) := by
  rcases callVisitorMethods_cases ctx mn nn _ st _ st' hok with
    ⟨e, hr, _, _⟩ | ⟨vs, st1, _, hg, hst⟩
  · exact absurd hr (by simp)
  rcases getVisitors_somedirs ctx nn ds mn st _ st1 hg with
    ⟨e, hr', _, _⟩ | ⟨vs', hr', hb, hst1⟩
  · exact absurd hr' (by simp)
  have hvs : vs = vs' := Except.ok.inj hr'
  subst hvs
  obtain ⟨hnames, hvt⟩ := buildVisitors_ok ctx nn mn ds vs hb
  refine ⟨vs, hb, ?_, ?_, ?_⟩
  · have hlen : (vs.map (fun v => v.name)).length =
        ((ds.filter (isActiveOccurrence ctx mn)).map DirectiveNode.name).length := by
      rw [hnames]
    rw [List.length_map, List.length_map] at hlen
    rw [hlen, List.countP_eq_length_filter]
  · rw [hst, hst1]
  · intro d hd cls hcls hsc v hv hveq
    have hmem : v.name ∈ (ds.filter (isActiveOccurrence ctx mn)).map DirectiveNode.name := by
      rw [← hnames]
      exact List.mem_map.mpr ⟨v, hv, rfl⟩
    rcases List.mem_map.mp hmem with ⟨d', hd', hd'eq⟩
    have hact : isActiveOccurrence ctx mn d' = true := (List.mem_filter.mp hd').2
    have hname : d'.name = d.name := by rw [hd'eq, hveq]
    have heq : isActiveOccurrence ctx mn d' = shouldCall cls mn := by
      unfold isActiveOccurrence
      rw [hname, hcls]
    rw [heq, hsc] at hact
    exact Bool.false_ne_true hact

/-- C9: the instances resolved for a node are in the source order of its
occurrences (their name sequence equals the filtered occurrence name
sequence), each per-name list of the aggregated result index is extended in
creation order, and the dispatch events fire in exactly that order. -/
theorem c9_occurrence_source_order (ctx : WalkCtx) (nn mn : String)
    (ds : List DirectiveNode) (st : WalkState) (vs : List VisitorInstance)
    (st1 : WalkState)
    (hg : getVisitors ctx nn (some ⟨some ds⟩) mn st = (.ok vs, st1)) :
    vs.map (fun v => v.name) =
      (ds.filter (isActiveOccurrence ctx mn)).map DirectiveNode.name ∧
    (∀ name, assocLookup st1.createdVisitors name =
       (assocLookup st.createdVisitors name).map
         (fun l => l ++ vs.filter (fun v => v.name == name))) ∧
    callVisitorMethods ctx mn nn (some ⟨some ds⟩) st =
      (.ok (), { st1 with
        trace := st1.trace ++ vs.map fun v => WalkEvent.dispatch mn v.name nn }) := by
  rcases getVisitors_somedirs ctx nn ds mn st _ st1 hg with
    ⟨e, hr', _, _⟩ | ⟨vs', hr', hb, hst1⟩
  · exact absurd hr' (by simp)
  have hvs : vs = vs' := Except.ok.inj hr'
  subst hvs
  refine ⟨(buildVisitors_ok ctx nn mn ds vs hb).1, ?_, ?_⟩
  · intro name
    rw [hst1]
    exact assocLookup_registerVisitors vs st.createdVisitors name
  · simp only [callVisitorMethods, hg]

/-- C6: a built instance's coerced-argument object has exactly the declared
parameter names (in declaration order) when a declared directive exists for
the occurrence's name, and exactly the occurrence's supplied argument names
(first-encounter order, later duplicates overwriting) when none exists, each
supplied name bound to the decode of its last supplied literal with no
defaults and no rejection. -/
theorem c6_coerced_argument_keys (ctx : WalkCtx) (nn mn : String)
    (d : DirectiveNode) (v : VisitorInstance)
    (h : buildVisitor ctx nn mn d = .ok (some v)) :
    (∀ decl, assocLookup ctx.declaredDirectives d.name = some decl →
       v.args.map Prod.fst = decl.args.map DeclaredArgument.name) ∧
    (assocLookup ctx.declaredDirectives d.name = none →
       v.args.map Prod.fst = firstKeys (d.arguments.map Prod.fst) ∧
       (∀ n raw, lastLookup d.arguments n = some raw →
          ∃ w, valueFromASTUntyped raw = .ok w ∧ assocLookup v.args n = some w)) := by
  cases hl : assocLookup ctx.directiveVisitors d.name with
  | none => simp [buildVisitor, hl] at h
  | some cls =>
    by_cases hs : shouldCall cls mn
    · constructor
      · intro decl hd
        simp only [buildVisitor, hl, hs, if_true, hd, Except.ok.injEq,
          Option.some.injEq] at h
        rw [← h]
        show (decl.args.map _).map Prod.fst = _
        rw [List.map_map]
        refine List.map_congr_left ?_
        intro p _
        show ((match assocLookup d.arguments p.name with
               | some raw => (p.name, p.coerce raw)
               | none => (p.name, p.defaultValue.getD .vnull)) : String × Value).1 = _
        cases assocLookup d.arguments p.name <;> rfl
      · intro hd
        cases hdec : decodeArguments [] d.arguments with
        | error e => simp [buildVisitor, hl, hs, hd, hdec] at h
        | ok args =>
          simp only [buildVisitor, hl, hs, if_true, hd, hdec, Except.ok.injEq,
            Option.some.injEq] at h
          rw [← h]
          constructor
          · show args.map Prod.fst = _
            rw [decodeArguments_keys d.arguments [] args hdec]
            exact firstKeys_of_empty_start _
          · intro n raw hraw
            exact (decodeArguments_lookup d.arguments [] args hdec n).1 raw hraw
    · simp [buildVisitor, hl, hs] at h



/-- C2 (amended): the untyped literal decoder maps each of the six recognised
literal kinds as specified: null to native null; an integer literal to the JS
Number `parseInt` yields from its decimal text — equal to the denoted integer
whenever its magnitude is at most 2^53 (the canonical decimal rendering of
any such integer decodes back to it), rounded to the nearest representable
IEEE-754 double beyond; a float literal to the parsed floating-point value
(represented abstractly by its text); string, enum and boolean literals to
their raw values unchanged; a list literal to the ordered sequence of
recursive decodes; and an object literal to a mapping from field name to
recursive decode in encounter order where a later duplicate field overwrites
the earlier binding (last occurrence wins). -/
theorem c2_literal_decoder_cases :
    valueFromASTUntyped .nullValue = .ok .vnull
    ∧ (∀ n : Int, n.natAbs ≤ 2 ^ 53 →
         valueFromASTUntyped (.intValue (intDecimal n)) = .ok (.vint n))
    ∧ (∀ s, valueFromASTUntyped (.floatValue s) = .ok (.vfloat s))
    ∧ (∀ s, valueFromASTUntyped (.stringValue s) = .ok (.vstr s))
    ∧ (∀ s, valueFromASTUntyped (.enumValue s) = .ok (.vstr s))
    ∧ (∀ b, valueFromASTUntyped (.booleanValue b) = .ok (.vbool b))
    ∧ (∀ vs ws, valueListFromAST vs = .ok ws →
         valueFromASTUntyped (.listValue vs) = .ok (.vlist ws) ∧
         List.Forall₂ (fun v w => valueFromASTUntyped v = .ok w) vs ws)
    ∧ (∀ fs m, valueFieldsFromAST [] fs = .ok m →
         valueFromASTUntyped (.objectValue fs) = .ok (.vobj m) ∧
         m.map Prod.fst = firstKeys (fs.map Prod.fst) ∧
         (∀ k raw, lastLookup fs k = some raw →
            ∃ w, valueFromASTUntyped raw = .ok w ∧ assocLookup m k = some w)) := by
  refine ⟨rfl, ?_, fun s => rfl, fun s => rfl, fun s => rfl, fun b => rfl,
    ?_, ?_⟩
  · intro n hb
    show Except.ok (parseIntResult (intDecimal n)) = _
    rw [parseIntResult, jsParseInt10_intDecimal n hb]
  · intro vs ws h
    refine ⟨?_, valueListFromAST_forall2 vs ws h⟩
    simp only [valueFromASTUntyped, h]
  · intro fs m h
    refine ⟨?_, ?_, ?_⟩
    · simp only [valueFromASTUntyped, h]
    · rw [valueFieldsFromAST_keys fs [] m h]
      exact firstKeys_of_empty_start _
    · intro k raw hraw
      exact (valueFieldsFromAST_lookup fs [] m h k).1 raw hraw

/-- C3: a raw literal of an unrecognised kind is the only fatal condition:
its decode throws `Unexpected value kind`, a walk that threw on a prefix of
the type map is unchanged by whatever types follow (nothing after the
offending node is visited or dispatched, and no partial result exists since
the walk's value is an `Except`), and every error a whole walk can surface is
such an unsupported-literal-kind error. -/
theorem c3_unsupported_literal_kind_fatal :
    (∀ kind, valueFromASTUntyped (.otherValue kind) =
       .error ("Unexpected value kind: " ++ kind))
    ∧ (∀ (ctx : WalkCtx) ts1 ts2 (st : WalkState) e st',
         visitTypeMap ctx ts1 st = (.error e, st') →
         visitTypeMap ctx (ts1 ++ ts2) st = (.error e, st'))
    ∧ (∀ (schema : Schema) tbl e st', visitSchema schema tbl = (.error e, st') →
         IsKindError e) :=
  ⟨fun kind => rfl, visitTypeMap_error_append, visitSchema_error_shape⟩

/-- C4 (amended): the fatal decode error is surfaced synchronously to the
walk's caller, but it carries only the unsupported literal's kind tag
(`Unexpected value kind: <kind>`); it does not include the occurrence name or
the node name. -/
theorem c4_error_kind_only (schema : Schema) (tbl : List (String × VisitorClass))
    (e : String) (st' : WalkState) (h : visitSchema schema tbl = (.error e, st')) :
    ∃ kind, e = "Unexpected value kind: " ++ kind :=
  visitSchema_error_shape schema tbl e st' h

/-- C5: `getLocations` derives exactly the set of directive locations whose
visit methods the class overrides (as a permutation of the overridden rows'
location values), computes it on the first call, and memoizes it: any
repeated call returns the same list unchanged.  The hypothesis states that
the class's `for...in` prototype enumeration lists each recognised dispatch
method exactly once, as ES5 class compilation guarantees. -/
theorem c5_get_locations_memoized (cls : VisitorClass)
    (hwf : ∀ m ∈ methodNames, cls.protoKeys.count m = 1) :
    (computeLocations cls).Perm
      ((methodToLocationMap.filter fun pr => cls.overridesMethod pr.1).map Prod.snd)
    ∧ getLocations cls none = (computeLocations cls, some (computeLocations cls))
    ∧ (∀ memo ls memo', getLocations cls memo = (ls, memo') →
         getLocations cls memo' = (ls, memo')) := by
  refine ⟨computeLocations_perm cls hwf, rfl, ?_⟩
  intro memo ls memo' h
  cases memo with
  | none =>
    simp only [getLocations] at h
    injection h with h1 h2
    rw [← h1, ← h2]
    rfl
  | some l0 =>
    simp only [getLocations] at h
    injection h with h1 h2
    rw [← h1, ← h2]
    rfl



theorem map_fst_filter_comm {α : Type} (l : List (String × α)) (q : String → Bool) :
    (l.filter (fun p => q p.1)).map Prod.fst = (l.map Prod.fst).filter q := by
  induction l with
  | nil => rfl
  | cons p rest ih =>
    rw [List.filter_cons, List.map_cons, List.filter_cons]
    by_cases hq : q p.1
    · rw [if_pos hq, if_pos hq, List.map_cons, ih]
    · rw [if_neg hq, if_neg hq, ih]

/-- C7: a successful walk dispatches the Root-Schema annotations at the
schema node first (the trace starts with `visitSchema` dispatches, and no
later event is a `visitSchema` dispatch), and then visits each type-map entry
exactly once in the table's declaration order: every reserved (`__`-prefixed)
name is entered zero times, every other entry exactly once, and the sequence
of entered type names is exactly the sequence of non-reserved table keys in
declaration order.  The hypotheses state the GraphQL type-map invariants:
keys are unique and each type is stored under its own name. -/
theorem c7_schema_first_then_types_once (schema : Schema)
    (tbl : List (String × VisitorClass)) (res : List (String × List VisitorInstance))
    (st : WalkState) (hok : visitSchema schema tbl = (.ok res, st))
    (hkeys : (schema.typeMap.map Prod.fst).Nodup)
    (hnames : ∀ p ∈ schema.typeMap, NamedType.name p.2 = p.1) :
    (∃ schemaEvts rest, st.trace = schemaEvts ++ rest ∧
       (∀ ev ∈ schemaEvts, ∃ d, ev = WalkEvent.dispatch "visitSchema" d schemaNodeName) ∧
       (∀ ev ∈ rest, ∀ d n, ev ≠ WalkEvent.dispatch "visitSchema" d n)) ∧
    (∀ p ∈ schema.typeMap,
       st.trace.count (WalkEvent.enter p.1) = if isReservedName p.1 then 0 else 1) ∧
    st.trace.filterMap enterName =
      (schema.typeMap.filter (fun p => !(isReservedName p.1))).map Prod.fst := by
  simp only [visitSchema] at hok
  cases hc : callVisitorMethods
      ⟨tbl, jsObjOf (schema.directives.map fun d => (d.name, d))⟩ "visitSchema"
      schemaNodeName schema.astNode
      ⟨jsObjOf (tbl.map fun p => (p.1, [])), []⟩ with
  | mk rc st1 =>
    rw [hc] at hok
    cases rc with
    | error e =>
      injection hok with h1 h2
      exact absurd h1 (by simp)
    | ok u =>
      cases u
      dsimp only at hok
      cases hv : visitTypeMap ⟨tbl, jsObjOf (schema.directives.map fun d => (d.name, d))⟩
          schema.typeMap st1 with
      | mk rv st2 =>
        rw [hv] at hok
        cases rv with
        | error e =>
          injection hok with h1 h2
          exact absurd h1 (by simp)
        | ok u' =>
          cases u'
          injection hok with h1 h2
          subst h2
          obtain ⟨ext0, htr0, hev0⟩ := callVisitorMethods_trace _ _ _ _ _ _ _ hc
          obtain ⟨⟨ext1, htr1, hev1⟩, _⟩ := visitTypeMap_props _ _ _ _ _ hv
          have htr0' : st1.trace = ext0 := by
            rw [htr0]
            rfl
          refine ⟨?_, ?_, ?_⟩
          · refine ⟨ext0, ext1, ?_, ?_, ?_⟩
            · rw [htr1, htr0']
            · intro ev hev
              exact hev0 ev hev
            · intro ev hev d n hcontra
              rcases hev1 ev hev with ⟨nm, hnm⟩ | ⟨m, d', n', hevq, hm⟩
              · rw [hnm] at hcontra
                exact WalkEvent.noConfusion hcontra
              · rw [hevq] at hcontra
                injection hcontra with hm1 hm2 hm3
                subst hm1
                have : ("visitSchema" : String) ∉ typeLevelMethods := by decide
                exact this hm
          · intro p hp
            have hcount := visitTypeMap_enter_count _ schema.typeMap st1 st2 hv p.1
            have hz : st1.trace.count (WalkEvent.enter p.1) = 0 := by
              rw [htr0', List.count_eq_zero]
              intro hmem
              obtain ⟨d, hd⟩ := hev0 _ hmem
              exact WalkEvent.noConfusion hd
            rw [hcount, hz, Nat.zero_add]
            have hmapeq : (schema.typeMap.filter (fun q => !(isReservedName q.1))).map
                (fun q => NamedType.name q.2) =
                (schema.typeMap.filter (fun q => !(isReservedName q.1))).map Prod.fst := by
              refine List.map_congr_left ?_
              intro q hq
              exact hnames q (List.mem_filter.mp hq).1
            rw [hmapeq,
              map_fst_filter_comm schema.typeMap (fun k => !(isReservedName k)),
              count_filter_eq]
            have hpmem : p.1 ∈ schema.typeMap.map Prod.fst :=
              List.mem_map.mpr ⟨p, hp, rfl⟩
            by_cases hres : isReservedName p.1
            · rw [if_neg (by rw [hres]; exact Bool.false_ne_true), if_pos hres]
            · have hb : (!(isReservedName p.1)) = true := by
                rw [Bool.eq_false_iff.mpr hres]
                rfl
              rw [if_pos hb, if_neg hres]
              exact List.count_eq_one_of_mem hkeys hpmem
          · have hseq := visitTypeMap_enter_seq _ schema.typeMap st1 st2 hv
            have hz : st1.trace.filterMap enterName = [] := by
              rw [htr0']
              exact filterMap_enterName_nil ext0 (fun ev he => by
                obtain ⟨d, hd⟩ := hev0 ev he
                exact ⟨"visitSchema", d, schemaNodeName, hd⟩)
            rw [hseq, hz, List.nil_append]
            refine List.map_congr_left ?_
            intro q hq
            exact hnames q (List.mem_filter.mp hq).1

/-- C8: visiting a union type dispatches only `visitUnion` on the union node
itself: the trace grows by its enter event and `visitUnion` dispatches only,
and every instance added to the result index was created for the union node,
so no instance is created on any member type via this path. -/
theorem c8_union_no_member_recursion (ctx : WalkCtx) (nm : String)
    (ast : Option ASTNodeInfo) (members : List String) (st : WalkState)
    (r : Except String Unit) (st' : WalkState)
    (h : visitNamedType ctx (.unionType nm ast members) st = (r, st')) :
    (∃ ext, st'.trace = st.trace ++ [WalkEvent.enter nm] ++ ext ∧
       ∀ ev ∈ ext, ∃ d, ev = WalkEvent.dispatch "visitUnion" d nm) ∧
    (∀ name, ∃ added, (∀ v ∈ added, v.visitedTypeName = nm) ∧
       assocLookup st'.createdVisitors name =
         (assocLookup st.createdVisitors name).map (fun l => l ++ added)) := by
  simp only [visitNamedType, NamedType.name] at h
  constructor
  · obtain ⟨ext, htr, hev⟩ := callVisitorMethods_trace ctx "visitUnion" nm ast _ r st' h
    exact ⟨ext, by rw [htr], hev⟩
  · intro name
    obtain ⟨added, hvt, hlk⟩ :=
      callVisitorMethods_created ctx "visitUnion" nm ast _ r st' h name
    exact ⟨added, hvt, hlk⟩

/-- C10: a node whose `astNode` is absent, or whose AST node carries no
directives list, resolves to no instances and the walk continues; hence a
schema built programmatically (no AST nodes anywhere) walks successfully and
returns a result index mapping every registered name to the empty list,
whatever the handler table contains. -/
theorem c10_missing_ast_yields_no_instances :
    (∀ (ctx : WalkCtx) nn mn st, getVisitors ctx nn none mn st = (.ok [], st))
    ∧ (∀ (ctx : WalkCtx) nn mn st, getVisitors ctx nn (some ⟨none⟩) mn st = (.ok [], st))
    ∧ (∀ (schema : Schema) (tbl : List (String × VisitorClass)),
         Schema.astFree schema = true →
         ∃ st', visitSchema schema tbl =
             (.ok (jsObjOf (tbl.map fun p => (p.1, ([] : List VisitorInstance)))), st') ∧
           ∀ name ∈ tbl.map Prod.fst,
             assocLookup (jsObjOf (tbl.map fun p => (p.1, ([] : List VisitorInstance))))
               name = some []) := by
  refine ⟨fun ctx nn mn st => rfl, fun ctx nn mn st => rfl, ?_⟩
  intro schema tbl h
  obtain ⟨st', h1, _⟩ := visitSchema_astFree schema tbl h
  exact ⟨st', h1, fun name hname => jsObjOf_nil_values_lookup tbl name hname⟩



/-! ## Concrete witnesses -/

/-- A class overriding every visit method. -/
def c1AllCls : VisitorClass := ⟨fun _ => true, methodNames⟩

/-- A class overriding no visit method. -/
def c1NoneCls : VisitorClass := ⟨fun _ => false, methodNames⟩

def c1Ctx : WalkCtx := ⟨[("rest", c1AllCls), ("off", c1NoneCls)], []⟩

def c1Ds : List DirectiveNode :=
  [⟨"rest", [("url", .stringValue "/api")]⟩, ⟨"off", []⟩, ⟨"unknown", []⟩]

def c1St : WalkState := ⟨[("rest", []), ("off", [])], []⟩

theorem c1_witness :
    ∃ vs, buildVisitors c1Ctx "people" "visitFieldDefinition" c1Ds = .ok vs ∧
      vs.length = c1Ds.countP (isActiveOccurrence c1Ctx "visitFieldDefinition") ∧
      ((callVisitorMethods c1Ctx "visitFieldDefinition" "people"
          (some ⟨some c1Ds⟩) c1St).2).trace =
        c1St.trace ++
          vs.map (fun v => WalkEvent.dispatch "visitFieldDefinition" v.name "people") ∧
      (∀ d ∈ c1Ds, ∀ cls, assocLookup c1Ctx.directiveVisitors d.name = some cls →
        shouldCall cls "visitFieldDefinition" = false → ∀ v ∈ vs, v.name ≠ d.name) :=
  c1_override_gates_instantiation c1Ctx "people" "visitFieldDefinition" c1Ds c1St
    (callVisitorMethods c1Ctx "visitFieldDefinition" "people" (some ⟨some c1Ds⟩) c1St).2
    (by rfl)

theorem c2_witness :
    (valueFromASTUntyped (.listValue [.intValue "1", .intValue "2", .intValue "3"]) =
        .ok (.vlist [.vint 1, .vint 2, .vint 3]) ∧
      List.Forall₂ (fun v w => valueFromASTUntyped v = .ok w)
        [ValueNode.intValue "1", ValueNode.intValue "2", ValueNode.intValue "3"]
        [Value.vint 1, Value.vint 2, Value.vint 3]) ∧
    (valueFromASTUntyped (.objectValue [("a", .intValue "1"), ("a", .intValue "2")]) =
        .ok (.vobj [("a", .vint 2)]) ∧
      ([("a", Value.vint 2)].map Prod.fst =
        firstKeys ([("a", ValueNode.intValue "1"), ("a", ValueNode.intValue "2")].map
          Prod.fst)) ∧
      (∀ k raw,
        lastLookup [("a", ValueNode.intValue "1"), ("a", ValueNode.intValue "2")] k =
          some raw →
        ∃ w, valueFromASTUntyped raw = .ok w ∧
          assocLookup [("a", Value.vint 2)] k = some w)) ∧
    ((50 : Int).natAbs ≤ 2 ^ 53 ∧
      valueFromASTUntyped (.intValue (intDecimal 50)) = .ok (.vint 50)) :=
  ⟨c2_literal_decoder_cases.2.2.2.2.2.2.1
      [.intValue "1", .intValue "2", .intValue "3"]
      [.vint 1, .vint 2, .vint 3] (by rfl),
   c2_literal_decoder_cases.2.2.2.2.2.2.2
      [("a", .intValue "1"), ("a", .intValue "2")] [("a", .vint 2)] (by rfl),
   by decide,
   c2_literal_decoder_cases.2.1 50 (by decide)⟩

set_option maxRecDepth 100000 in
/-- Counterexample to the original C2 integer clause: the decimal text of
2^53 + 1 does not decode to 2^53 + 1.  `parseInt` returns a JS Number (an
IEEE-754 double), and 9007199254740993 is not representable: it rounds to
the nearest even double 9007199254740992, so the decoded integer differs
from the denoted one. -/
theorem c2_counterexample :
    valueFromASTUntyped (.intValue "9007199254740993") =
      .ok (.vint 9007199254740992) ∧
    (9007199254740992 : Int) ≠ (9007199254740993 : Int) :=
  ⟨by rfl, by decide⟩

def c3BoomCls : VisitorClass := ⟨fun _ => true, methodNames⟩

def c3BadType : NamedType :=
  .scalarType "Bad" (some ⟨some [⟨"boom", [("x", .otherValue "Strange")]⟩]⟩)

def c3GoodType : NamedType := .scalarType "Good" (some ⟨some [⟨"boom", []⟩]⟩)

def c3Ctx : WalkCtx := ⟨[("boom", c3BoomCls)], []⟩

def c3St : WalkState := ⟨[("boom", [])], []⟩

def c3Schema : Schema := ⟨none, [("Bad", c3BadType)], []⟩

theorem c3_witness :
    valueFromASTUntyped (.otherValue "Strange") =
      .error ("Unexpected value kind: " ++ "Strange") ∧
    visitTypeMap c3Ctx ([("Bad", c3BadType)] ++ [("Good", c3GoodType)]) c3St =
      (.error "Unexpected value kind: Strange",
       (visitTypeMap c3Ctx [("Bad", c3BadType)] c3St).2) ∧
    IsKindError "Unexpected value kind: Strange" :=
  ⟨c3_unsupported_literal_kind_fatal.1 "Strange",
   c3_unsupported_literal_kind_fatal.2.1 c3Ctx [("Bad", c3BadType)] [("Good", c3GoodType)]
     c3St "Unexpected value kind: Strange"
     (visitTypeMap c3Ctx [("Bad", c3BadType)] c3St).2 (by rfl),
   c3_unsupported_literal_kind_fatal.2.2 c3Schema [("boom", c3BoomCls)]
     "Unexpected value kind: Strange" (visitSchema c3Schema [("boom", c3BoomCls)]).2
     (by rfl)⟩

def c4Cls : VisitorClass := ⟨fun _ => true, methodNames⟩

def c4SchemaA : Schema :=
  ⟨none,
   [("TypeA", .scalarType "TypeA" (some ⟨some [⟨"alpha", [("x", .otherValue "Strange")]⟩]⟩))],
   []⟩

def c4SchemaB : Schema :=
  ⟨none,
   [("TypeB", .scalarType "TypeB" (some ⟨some [⟨"beta", [("y", .otherValue "Strange")]⟩]⟩))],
   []⟩

/-- C4 counterexample: two walks that differ in both the occurrence name
(`alpha` vs `beta`) and the node name (`TypeA` vs `TypeB`) surface the
identical error, so the surfaced error does not carry the occurrence name or
the node name: it cannot locate the offending annotation. -/
theorem c4_counterexample :
    (visitSchema c4SchemaA [("alpha", c4Cls)]).1 =
      .error "Unexpected value kind: Strange" ∧
    (visitSchema c4SchemaB [("beta", c4Cls)]).1 =
      .error "Unexpected value kind: Strange" ∧
    ("alpha" : String) ≠ "beta" ∧ ("TypeA" : String) ≠ "TypeB" :=
  ⟨rfl, rfl, by decide, by decide⟩

theorem c4_witness :
    ∃ kind, "Unexpected value kind: Strange" = "Unexpected value kind: " ++ kind :=
  c4_error_kind_only c4SchemaA [("alpha", c4Cls)] "Unexpected value kind: Strange"
    (visitSchema c4SchemaA [("alpha", c4Cls)]).2 (by rfl)

def c5Cls : VisitorClass :=
  ⟨fun m => m == "visitObject" || m == "visitUnion", methodNames⟩

theorem c5_witness :
    (computeLocations c5Cls).Perm
      ((methodToLocationMap.filter fun pr => c5Cls.overridesMethod pr.1).map Prod.snd) ∧
    getLocations c5Cls none = (computeLocations c5Cls, some (computeLocations c5Cls)) ∧
    (∀ memo ls memo', getLocations c5Cls memo = (ls, memo') →
       getLocations c5Cls memo' = (ls, memo')) :=
  c5_get_locations_memoized c5Cls (by decide)

def c6AuthCoerce : ValueNode → Value
  | .enumValue s => .vstr s
  | _ => .vnull

def c6AuthDecl : GraphQLDirectiveDecl :=
  ⟨"auth", [⟨"requires", c6AuthCoerce, some (.vstr "ADMIN")⟩]⟩

def c6Ctx : WalkCtx :=
  ⟨[("auth", ⟨fun _ => true, methodNames⟩), ("length", ⟨fun _ => true, methodNames⟩)],
   [("auth", c6AuthDecl)]⟩

def c6DTyped : DirectiveNode := ⟨"auth", []⟩

def c6DUntyped : DirectiveNode := ⟨"length", [("max", .intValue "50")]⟩

theorem c6_witness :
    ([("requires", Value.vstr "ADMIN")].map Prod.fst =
       c6AuthDecl.args.map DeclaredArgument.name) ∧
    ([("max", Value.vint 50)].map Prod.fst =
       firstKeys (c6DUntyped.arguments.map Prod.fst)) ∧
    (∃ w, valueFromASTUntyped (.intValue "50") = .ok w ∧
       assocLookup [("max", Value.vint 50)] "max" = some w) :=
  ⟨(c6_coerced_argument_keys c6Ctx "Query" "visitObject" c6DTyped
      ⟨"auth", [("requires", .vstr "ADMIN")], "Query"⟩ (by rfl)).1 c6AuthDecl (by rfl),
   ((c6_coerced_argument_keys c6Ctx "Query" "visitObject" c6DUntyped
      ⟨"length", [("max", .vint 50)], "Query"⟩ (by rfl)).2 (by rfl)).1,
   ((c6_coerced_argument_keys c6Ctx "Query" "visitObject" c6DUntyped
      ⟨"length", [("max", .vint 50)], "Query"⟩ (by rfl)).2 (by rfl)).2 "max"
     (.intValue "50") (by rfl)⟩

def c7Schema : Schema :=
  ⟨some ⟨some [⟨"boomSeven", []⟩]⟩,
   [("Query", .objectType "Query" none []), ("__Intro", .scalarType "__Intro" none)],
   []⟩

def c7Tbl : List (String × VisitorClass) := [("boomSeven", ⟨fun _ => true, methodNames⟩)]

theorem c7_witness :
    (∃ schemaEvts rest,
       ((visitSchema c7Schema c7Tbl).2).trace = schemaEvts ++ rest ∧
       (∀ ev ∈ schemaEvts, ∃ d, ev = WalkEvent.dispatch "visitSchema" d schemaNodeName) ∧
       (∀ ev ∈ rest, ∀ d n, ev ≠ WalkEvent.dispatch "visitSchema" d n)) ∧
    (∀ p ∈ c7Schema.typeMap,
       ((visitSchema c7Schema c7Tbl).2).trace.count (WalkEvent.enter p.1) =
         if isReservedName p.1 then 0 else 1) ∧
    ((visitSchema c7Schema c7Tbl).2).trace.filterMap enterName =
      (c7Schema.typeMap.filter (fun p => !(isReservedName p.1))).map Prod.fst :=
  c7_schema_first_then_types_once c7Schema c7Tbl
    [("boomSeven", [⟨"boomSeven", [], schemaNodeName⟩])]
    (visitSchema c7Schema c7Tbl).2 (by rfl) (by decide) (by decide)

def c8Cls : VisitorClass := ⟨fun _ => true, methodNames⟩

def c8Ctx : WalkCtx := ⟨[("tagU", c8Cls)], []⟩

def c8St : WalkState := ⟨[("tagU", [])], []⟩

def c8Ast : Option ASTNodeInfo := some ⟨some [⟨"tagU", []⟩]⟩

theorem c8_witness :
    (∃ ext,
       ((visitNamedType c8Ctx (.unionType "U" c8Ast ["A", "B"]) c8St).2).trace =
         c8St.trace ++ [WalkEvent.enter "U"] ++ ext ∧
       ∀ ev ∈ ext, ∃ d, ev = WalkEvent.dispatch "visitUnion" d "U") ∧
    (∀ name, ∃ added, (∀ v ∈ added, v.visitedTypeName = "U") ∧
       assocLookup
           ((visitNamedType c8Ctx (.unionType "U" c8Ast ["A", "B"]) c8St).2).createdVisitors
           name =
         (assocLookup c8St.createdVisitors name).map (fun l => l ++ added)) :=
  c8_union_no_member_recursion c8Ctx "U" c8Ast ["A", "B"] c8St
    (visitNamedType c8Ctx (.unionType "U" c8Ast ["A", "B"]) c8St).1
    (visitNamedType c8Ctx (.unionType "U" c8Ast ["A", "B"]) c8St).2 (by rfl)

def c9Ctx : WalkCtx :=
  ⟨[("a", ⟨fun _ => true, methodNames⟩), ("b", ⟨fun _ => true, methodNames⟩)], []⟩

def c9Ds : List DirectiveNode := [⟨"a", []⟩, ⟨"b", []⟩]

def c9St : WalkState := ⟨[("a", []), ("b", [])], []⟩

theorem c9_witness :
    ([VisitorInstance.mk "a" [] "fieldX", VisitorInstance.mk "b" [] "fieldX"].map
        (fun v => v.name) =
      (c9Ds.filter (isActiveOccurrence c9Ctx "visitFieldDefinition")).map
        DirectiveNode.name) ∧
    (∀ name,
       assocLookup
           ((getVisitors c9Ctx "fieldX" (some ⟨some c9Ds⟩) "visitFieldDefinition"
             c9St).2).createdVisitors name =
         (assocLookup c9St.createdVisitors name).map
           (fun l => l ++
             [VisitorInstance.mk "a" [] "fieldX",
              VisitorInstance.mk "b" [] "fieldX"].filter (fun v => v.name == name))) ∧
    callVisitorMethods c9Ctx "visitFieldDefinition" "fieldX" (some ⟨some c9Ds⟩) c9St =
      (.ok (),
       { (getVisitors c9Ctx "fieldX" (some ⟨some c9Ds⟩) "visitFieldDefinition" c9St).2 with
         trace :=
           ((getVisitors c9Ctx "fieldX" (some ⟨some c9Ds⟩) "visitFieldDefinition"
             c9St).2).trace ++
             [VisitorInstance.mk "a" [] "fieldX", VisitorInstance.mk "b" [] "fieldX"].map
               fun v => WalkEvent.dispatch "visitFieldDefinition" v.name "fieldX" }) :=
  c9_occurrence_source_order c9Ctx "fieldX" "visitFieldDefinition" c9Ds c9St
    [VisitorInstance.mk "a" [] "fieldX", VisitorInstance.mk "b" [] "fieldX"]
    (getVisitors c9Ctx "fieldX" (some ⟨some c9Ds⟩) "visitFieldDefinition" c9St).2 (by rfl)

def c10Schema : Schema :=
  ⟨none, [("Query", .objectType "Query" none [⟨"f", none, some [⟨"arg", none⟩]⟩])], []⟩

def c10Tbl : List (String × VisitorClass) := [("anything", ⟨fun _ => true, methodNames⟩)]

theorem c10_witness :
    getVisitors ⟨[], []⟩ "N" none "visitObject" ⟨[], []⟩ = (.ok [], ⟨[], []⟩) ∧
    (∃ st', visitSchema c10Schema c10Tbl =
        (.ok (jsObjOf (c10Tbl.map fun p => (p.1, ([] : List VisitorInstance)))), st') ∧
      ∀ name ∈ c10Tbl.map Prod.fst,
        assocLookup (jsObjOf (c10Tbl.map fun p => (p.1, ([] : List VisitorInstance))))
          name = some []) :=
  ⟨c10_missing_ast_yields_no_instances.1 ⟨[], []⟩ "N" "visitObject" ⟨[], []⟩,
   c10_missing_ast_yields_no_instances.2.2 c10Schema c10Tbl (by rfl)⟩

end SchemaDirectives
